import Mathlib

/-! # A heap model of `queue.c`

The queue of `queue.c` is a singly linked list of heap-allocated elements, each owning a
heap-allocated C string. The functions below are the functions of `queue.c`, statement by
statement, over an explicit heap:

* a pointer is a natural number, `0` is `NULL`;
* the heap maps an address to the block that is live there (`none`: nothing is allocated at
  that address, or the block has been passed to `free`);
* every function returns `Res`: either `ok` with its C return value and the heap it leaves,
  or a `fault` when the C execution has no defined behaviour (a read or write through a
  null, dangling or unassigned pointer, a write past the end of a block, a copy between
  overlapping blocks, a `free` of something that is not live) or when a loop runs out of fuel;
* what `malloc` returns is not decided by the program: each call to `malloc` in the source
  takes its result as an argument of the model (`0`: the allocation failed), and the model
  has no run in which `malloc` returns an address that is still live;
* a block returned by `malloc` has no contents yet: a field of a new element is `none`
  until the program assigns it, and reading it is a fault;
* the count of a queue is an `int`: what `+= 1` and `-= 1` store is wrapped to 32 bits, two's
  complement (`wrap_int`).
-/

namespace Queue

/-! ## Memory -/

/-- A machine address; `0` is the null pointer. -/
abbrev Ptr := Nat

/-- A C string: the bytes before the terminator. -/
abbrev CStr := List Nat

/-- Modelled from the spec: `queue.h` (the declarations of `queue_t` and `list_ele_t`) is not
among the sources; the fields are the ones `queue.c` uses. An element "holds one owned string
value and a reference to the next element", a queue "holds a reference to the first element,
a reference to the last element, and a running count of elements". The count is an `int`, as
`q_size` returns it: the field holds an integer, and what is stored after `+= 1` and `-= 1`
is wrapped to 32 bits (`wrap_int`). A `chars` block is the storage `malloc`
returns for a string: `cap` bytes, holding the C string `s` and its terminator once one
has been written. -/
inductive Block where
  | queue (head tail : Ptr) (q_size : Int)
  | ele (value next : Option Ptr)
  | chars (cap : Nat) (s : Option CStr)
  deriving DecidableEq, Repr

/-- The heap: the live block at each address. -/
abbrev Heap := Ptr → Option Block

/-- Why an execution has no result. -/
inductive Fault where
  | invalid_access
  | invalid_free
  | overflow
  | overlap
  | allocator
  | out_of_fuel
  deriving DecidableEq, Repr

/-- The outcome of running a C function. -/
inductive Res (α : Type) where
  | ok (a : α)
  | fault (f : Fault)
  deriving DecidableEq, Repr

/-- Sequencing of executions: a fault ends the run. -/
def Res.bind {α β : Type} (x : Res α) (f : α → Res β) : Res β :=
  match x with
  | Res.ok a => f a
  | Res.fault e => Res.fault e

instance : Monad Res where
  pure := Res.ok
  bind := Res.bind

/-- The value of type `int` (32 bits, two's complement) that holds an arithmetic result:
past `INT_MAX` or below `INT_MIN` the stored value wraps around. -/
def wrap_int (x : Int) : Int := (x + 2147483648) % 4294967296 - 2147483648

/-- The heap `h` with the block at `p` replaced. -/
def Heap.set (h : Heap) (p : Ptr) (b : Option Block) : Heap :=
  fun a => if a = p then b else h a

/-- The heap in which nothing is allocated. -/
def Heap.empty : Heap := fun _ => none

/-- The size `sizeof(char *)`, in bytes (LP64). -/
def sizeof_char_ptr : Nat := 8

/-- The allocator `malloc`: `r` is what the allocator returns, `0` for a failed allocation; `b` is the new
block, its contents unassigned. -/
def malloc (h : Heap) (r : Ptr) (b : Block) : Res (Ptr × Heap) :=
  if r = 0 then Res.ok (0, h)
  else if (h r).isSome then Res.fault Fault.allocator
  else Res.ok (r, h.set r (some b))

/-- The call `free(p)`: nothing for `NULL`, otherwise `p` must be live. -/
def free (h : Heap) (p : Ptr) : Res Heap :=
  if p = 0 then Res.ok h
  else match h p with
    | some _ => Res.ok (h.set p none)
    | none => Res.fault Fault.invalid_free

/-- The read `q->head`. -/
def load_head (h : Heap) (q : Ptr) : Res Ptr :=
  if q = 0 then Res.fault Fault.invalid_access
  else match h q with
    | some (Block.queue hd _ _) => Res.ok hd
    | _ => Res.fault Fault.invalid_access

/-- The read `q->tail`. -/
def load_tail (h : Heap) (q : Ptr) : Res Ptr :=
  if q = 0 then Res.fault Fault.invalid_access
  else match h q with
    | some (Block.queue _ tl _) => Res.ok tl
    | _ => Res.fault Fault.invalid_access

/-- The read `q->q_size`. -/
def load_size (h : Heap) (q : Ptr) : Res Int :=
  if q = 0 then Res.fault Fault.invalid_access
  else match h q with
    | some (Block.queue _ _ n) => Res.ok n
    | _ => Res.fault Fault.invalid_access

/-- The assignment `q->head = p`. -/
def store_head (h : Heap) (q p : Ptr) : Res Heap :=
  if q = 0 then Res.fault Fault.invalid_access
  else match h q with
    | some (Block.queue _ tl n) => Res.ok (h.set q (some (Block.queue p tl n)))
    | _ => Res.fault Fault.invalid_access

/-- The assignment `q->tail = p`. -/
def store_tail (h : Heap) (q p : Ptr) : Res Heap :=
  if q = 0 then Res.fault Fault.invalid_access
  else match h q with
    | some (Block.queue hd _ n) => Res.ok (h.set q (some (Block.queue hd p n)))
    | _ => Res.fault Fault.invalid_access

/-- The assignment `q->q_size = n`. -/
def store_size (h : Heap) (q : Ptr) (n : Int) : Res Heap :=
  if q = 0 then Res.fault Fault.invalid_access
  else match h q with
    | some (Block.queue hd tl _) => Res.ok (h.set q (some (Block.queue hd tl n)))
    | _ => Res.fault Fault.invalid_access

/-- The read `p->next`. -/
def load_next (h : Heap) (p : Ptr) : Res Ptr :=
  if p = 0 then Res.fault Fault.invalid_access
  else match h p with
    | some (Block.ele _ (some n)) => Res.ok n
    | _ => Res.fault Fault.invalid_access

/-- The read `p->value`. -/
def load_value (h : Heap) (p : Ptr) : Res Ptr :=
  if p = 0 then Res.fault Fault.invalid_access
  else match h p with
    | some (Block.ele (some v) _) => Res.ok v
    | _ => Res.fault Fault.invalid_access

/-- The assignment `p->next = n`. -/
def store_next (h : Heap) (p n : Ptr) : Res Heap :=
  if p = 0 then Res.fault Fault.invalid_access
  else match h p with
    | some (Block.ele v _) => Res.ok (h.set p (some (Block.ele v (some n))))
    | _ => Res.fault Fault.invalid_access

/-- The assignment `p->value = v`. -/
def store_value (h : Heap) (p v : Ptr) : Res Heap :=
  if p = 0 then Res.fault Fault.invalid_access
  else match h p with
    | some (Block.ele _ n) => Res.ok (h.set p (some (Block.ele (some v) n)))
    | _ => Res.fault Fault.invalid_access

/-- The C string stored at `p` (what `"%s"` or `strcmp` reads there). -/
def load_str (h : Heap) (p : Ptr) : Res CStr :=
  if p = 0 then Res.fault Fault.invalid_access
  else match h p with
    | some (Block.chars _ (some s)) => Res.ok s
    | _ => Res.fault Fault.invalid_access

/-- The length `strlen(s)`. -/
def strlen (s : CStr) : Nat := s.length

/-- The number of bytes `snprintf(dst, n, "%s", s)` writes: none when `n` is `0`, otherwise
the first `min (strlen s) (n - 1)` bytes of `s` and a terminator. -/
def snprintf_count (n : Nat) (s : CStr) : Nat :=
  if n = 0 then 0 else min (strlen s) (n - 1) + 1

/-- The call `snprintf(dst, n, "%s", s)`: nothing is written when `n` is `0`; otherwise the first
`min (strlen s) (n - 1)` bytes of `s` and a terminator are written at `dst`, which is a fault
when the block at `dst` is shorter than that. -/
def snprintf (h : Heap) (dst : Ptr) (n : Nat) (s : CStr) : Res Heap :=
  if n = 0 then Res.ok h
  else if dst = 0 then Res.fault Fault.invalid_access
  else match h dst with
    | some (Block.chars cap _) =>
        if snprintf_count n s ≤ cap then
          Res.ok (h.set dst (some (Block.chars cap (some (s.take (n - 1))))))
        else Res.fault Fault.overflow
    | _ => Res.fault Fault.invalid_access

/-- The call `snprintf(dst, n, "%s", src)` for a string `src` that is in the heap: copying between
objects that overlap is undefined. -/
def snprintf_from (h : Heap) (dst : Ptr) (n : Nat) (src : Ptr) : Res Heap := do
  let s ← load_str h src
  if n ≠ 0 ∧ dst = src then Res.fault Fault.overlap
  else snprintf h dst n s

/-- The comparison `strcmp(a, b)`: negative, zero or positive as `a` is before, equal to or after `b` in
the byte-wise lexicographic order. -/
def strcmp : CStr → CStr → Int
  | [], [] => 0
  | [], _ :: _ => -1
  | _ :: _, [] => 1
  | a :: as, b :: bs => if a < b then -1 else if b < a then 1 else strcmp as bs

/-! ## The functions of `queue.c` -/

/-- The function `q_new`: `r` is the result of its `malloc`. The three assignments that follow the
allocation are the contents of the new block. -/
def q_new (h : Heap) (r : Ptr) : Res (Ptr × Heap) := do
  let (q, h) ← malloc h r (Block.queue 0 0 0)
  if q = 0 then pure (0, h)
  else pure (q, h)

/-- The loop of `q_free`: `for (list_ele_t *tmp = q->head; !tmp; tmp = tmp->next)
{ free(tmp->value); free(tmp); }`. The body runs while `tmp` is null. -/
def free_loop : Nat → Heap → Ptr → Res Heap
  | 0, _, _ => Res.fault Fault.out_of_fuel
  | fuel + 1, h, tmp =>
    if tmp = 0 then do
      let v ← load_value h tmp
      let h ← free h v
      let h ← free h tmp
      let next ← load_next h tmp
      free_loop fuel h next
    else pure h

/-- The function `q_free`. -/
def q_free (fuel : Nat) (h : Heap) (q : Ptr) : Res Heap := do
  let hd ← load_head h q
  let h ← free_loop fuel h hd
  free h q

/-- The function `q_insert_head`: `r1` and `r2` are the results of its two calls to `malloc`. -/
def q_insert_head (h : Heap) (q : Ptr) (s : CStr) (r1 r2 : Ptr) : Res (Bool × Heap) :=
  if q = 0 then pure (false, h)
  else do
    let (newh, h) ← malloc h r1 (Block.ele none none)
    if newh = 0 then pure (false, h)
    else do
      let (value, h) ← malloc h r2 (Block.chars sizeof_char_ptr none)
      if value = 0 then do
        let h ← free h newh
        pure (false, h)
      else do
        let h ← snprintf h value (strlen s + 1) s
        let h ← store_value h newh value
        let hd ← load_head h q
        let h ← store_next h newh hd
        let h ← store_head h q newh
        let tl ← load_tail h q
        let h ← if tl = 0 then store_tail h q newh else pure h
        let n ← load_size h q
        let h ← store_size h q (wrap_int (n + 1))
        pure (true, h)

/-- The function `q_insert_tail`: `r1` and `r2` are the results of its two calls to `malloc`. -/
def q_insert_tail (h : Heap) (q : Ptr) (s : CStr) (r1 r2 : Ptr) : Res (Bool × Heap) :=
  if q = 0 then pure (false, h)
  else do
    let (newh, h) ← malloc h r1 (Block.ele none none)
    if newh = 0 then pure (false, h)
    else do
      let (value, h) ← malloc h r2 (Block.chars sizeof_char_ptr none)
      if value = 0 then do
        let h ← free h newh
        pure (false, h)
      else do
        let h ← snprintf h value (strlen s + 1) s
        let h ← store_value h newh value
        let tl ← load_tail h q
        let h ← if tl = 0 then do
              let h ← store_tail h q newh
              store_head h q newh
            else do
              let t ← load_tail h q
              let h ← store_next h t newh
              store_tail h q newh
        let n ← load_size h q
        let h ← store_size h q (wrap_int (n + 1))
        pure (true, h)

/-- The function `q_remove_head`: `sp` is the caller's buffer (a `chars` block, or `0`). -/
def q_remove_head (h : Heap) (q sp : Ptr) (bufsize : Nat) : Res (Bool × Heap) :=
  if q = 0 then pure (false, h)
  else do
    let hd ← load_head h q
    if hd = 0 then pure (false, h)
    else do
      let v ← load_value h hd
      let h ← snprintf_from h sp bufsize v
      let hd ← load_head h q
      let nx ← load_next h hd
      let h ← store_head h q nx
      let hd ← load_head h q
      let h ← free h hd
      let n ← load_size h q
      let h ← store_size h q (wrap_int (n - 1))
      pure (true, h)

/-- The function `q_size`. -/
def q_size (h : Heap) (q : Ptr) : Res Int :=
  if q = 0 then pure 0
  else load_size h q

/-- The loop of `q_reverse`: `while (cur) { next = cur->next; cur->next = last; last = cur;
cur = next; }`. -/
def reverse_loop : Nat → Heap → Ptr → Ptr → Res Heap
  | 0, _, _, _ => Res.fault Fault.out_of_fuel
  | fuel + 1, h, cur, last =>
    if cur = 0 then pure h
    else do
      let next ← load_next h cur
      let h ← store_next h cur last
      reverse_loop fuel h next cur

/-- The function `q_reverse`. -/
def q_reverse (fuel : Nat) (h : Heap) (q : Ptr) : Res Heap :=
  if q = 0 then pure h
  else do
    let hd ← load_head h q
    if hd = 0 then pure h
    else do
      let cur ← load_head h q
      let tl ← load_tail h q
      let h ← store_head h q tl
      let h ← store_tail h q cur
      reverse_loop fuel h cur 0

/-- The loop `for (int i = 0; i < (size / 2) - 1; i++) mid = mid->next;` of `merge_sort`,
with `k` iterations left. -/
def walk (h : Heap) : Nat → Ptr → Res Ptr
  | 0, mid => pure mid
  | k + 1, mid => do
    let mid ← load_next h mid
    walk h k mid

/-- The string of the element at `p`: `p->value` as a C string. -/
def load_key (h : Heap) (p : Ptr) : Res CStr := do
  let v ← load_value h p
  load_str h v

/-- The state of the merge of `merge_sort`: the heap and the variables `head`, `merge`,
`left` and `right`. -/
structure MergeState where
  heap : Heap
  head : Ptr
  merge : Ptr
  left : Ptr
  right : Ptr

/-- The body shared by the two inner loops of the merge, for `p` the element taken:
`if (merge == NULL) head = merge = p; else { merge->next = p; merge = merge->next; }`. -/
def append_merged (st : MergeState) (p : Ptr) : Res MergeState :=
  if st.merge = 0 then pure { st with head := p, merge := p }
  else do
    let h ← store_next st.heap st.merge p
    let m ← load_next h st.merge
    pure { st with heap := h, merge := m }

/-- The first inner loop of the merge: `while (left != NULL && (right == NULL ||
strcmp(left->value, right->value) < 0))`, appending `left` to the merged chain. -/
def take_left : Nat → MergeState → Res MergeState
  | 0, _ => Res.fault Fault.out_of_fuel
  | fuel + 1, st => do
    let c ← if st.left = 0 then pure false
      else if st.right = 0 then pure true
      else do
        let a ← load_key st.heap st.left
        let b ← load_key st.heap st.right
        pure (decide (strcmp a b < 0))
    if c then do
      let st ← append_merged st st.left
      let l ← load_next st.heap st.left
      take_left fuel { st with left := l }
    else pure st

/-- The second inner loop of the merge: `while (right != NULL && (left == NULL ||
strcmp(right->value, left->value) <= 0))`, appending `right` to the merged chain. -/
def take_right : Nat → MergeState → Res MergeState
  | 0, _ => Res.fault Fault.out_of_fuel
  | fuel + 1, st => do
    let c ← if st.right = 0 then pure false
      else if st.left = 0 then pure true
      else do
        let a ← load_key st.heap st.right
        let b ← load_key st.heap st.left
        pure (decide (strcmp a b ≤ 0))
    if c then do
      let st ← append_merged st st.right
      let r ← load_next st.heap st.right
      take_right fuel { st with right := r }
    else pure st

/-- The outer loop of the merge: `while (left != NULL || right != NULL)`. -/
def merge_loop : Nat → MergeState → Res MergeState
  | 0, _ => Res.fault Fault.out_of_fuel
  | fuel + 1, st =>
    if st.left ≠ 0 ∨ st.right ≠ 0 then do
      let st ← take_left (fuel + 1) st
      let st ← take_right (fuel + 1) st
      merge_loop fuel st
    else pure st

/-- The function `merge_sort`: returns the new first element and the heap. The division of `int` in C
truncates towards zero. -/
def merge_sort : Nat → Heap → Ptr → Int → Res (Ptr × Heap)
  | 0, _, _, _ => Res.fault Fault.out_of_fuel
  | fuel + 1, h, head, size =>
    if head = 0 then pure (head, h)
    else do
      let hn ← load_next h head
      if hn = 0 then pure (head, h)
      else do
        let mid ← walk h (Int.toNat (Int.tdiv size 2 - 1)) head
        let left := head
        let right ← load_next h mid
        let h ← store_next h mid 0
        let (left, h) ← merge_sort fuel h left (Int.tdiv size 2)
        let (right, h) ← merge_sort fuel h right (size - Int.tdiv size 2)
        let st ← merge_loop (fuel + 1)
          { heap := h, head := head, merge := 0, left := left, right := right }
        pure (st.head, st.heap)

/-- The function `q_sort`. -/
def q_sort (fuel : Nat) (h : Heap) (q : Ptr) : Res Heap :=
  if q = 0 then pure h
  else do
    let hd ← load_head h q
    if hd = 0 then pure h
    else do
      let n ← load_size h q
      if n = 1 then pure h
      else do
        let hd ← load_head h q
        let n ← load_size h q
        let (p, h) ← merge_sort fuel h hd n
        store_head h q p

/-! ## Chains, and what the sort may change -/

/-- The segment `is_seg h p as q`: following the next-references from `p` visits exactly the elements
`as`, in this order, and arrives at `q`. -/
def is_seg (h : Heap) : Ptr → List Ptr → Ptr → Prop
  | p, [], q => p = q
  | p, a :: as, q => p = a ∧ ∃ n, load_next h a = Res.ok n ∧ is_seg h n as q

/-- The chain `is_chain h p as`: the chain that starts at `p` is finite, consists of the elements `as`
in this order, and ends in an absent next-reference. -/
def is_chain (h : Heap) (p : Ptr) (as : List Ptr) : Prop := is_seg h p as 0

/-- The string of the element at `a` (the empty string where there is none to read). -/
def key_at (h : Heap) (a : Ptr) : CStr :=
  match load_key h a with
  | Res.ok s => s
  | Res.fault _ => []

/-- The relation `relinked S h h1`: the heap `h1` is `h` except for the next-references of elements
in `S`. -/
def relinked (S : List Ptr) (h h1 : Heap) : Prop :=
  ∀ a, h1 a = h a ∨
    (a ∈ S ∧ ∃ v n m, h a = some (Block.ele v n) ∧ h1 a = some (Block.ele v m))

/-- The merge of `merge_sort` on the lists of elements of the two halves: the first element
of the left half is taken when its string is strictly before that of the first element of
the right half, otherwise the first element of the right half is taken. -/
def merge_spec (key : Ptr → CStr) : List Ptr → List Ptr → List Ptr
  | [], R => R
  | x :: L, [] => x :: L
  | x :: L, y :: R =>
    if strcmp (key x) (key y) < 0 then x :: merge_spec key L (y :: R)
    else y :: merge_spec key (x :: L) R
termination_by L R => L.length + R.length

/-- The merged part of the chain during the merge: it is empty and `merge` is null, or it runs
from `head` to `merge`, its last element, whose next-reference is still the element that
followed it in its half. -/
def merged_ok (h : Heap) (head merge : Ptr) (A : List Ptr) (l r : Ptr) : Prop :=
  (A = [] ∧ merge = 0) ∨
    ∃ A', A = A' ++ [merge] ∧ is_seg h head A' merge ∧
      (load_next h merge = Res.ok l ∨ load_next h merge = Res.ok r)

/-- The invariant of the loops of the merge: `A` is the merged part, `L` and `R` are what is
left of the two halves, `h0` is the heap before the merge and `S` the elements it may
re-link. -/
structure MergeInv (h0 : Heap) (S : List Ptr) (st : MergeState) (A L R : List Ptr) : Prop where
  nodup : (A ++ (L ++ R)).Nodup
  sub : ∀ a, a ∈ A ++ (L ++ R) → a ∈ S
  left : is_chain st.heap st.left L
  right : is_chain st.heap st.right R
  merged : merged_ok st.heap st.head st.merge A st.left st.right
  heap : relinked S h0 st.heap
  keys : ∀ a, a ∈ L ++ R → ∃ s, load_key h0 a = Res.ok s

/-- The order the sort establishes between two elements: the string of `a` is not after the
string of `b` under `strcmp`. -/
def key_le (key : Ptr → CStr) (a b : Ptr) : Prop := strcmp (key a) (key b) ≤ 0

/-! ## Well-formed queues -/

/-- The chain of the queue at `q` is well formed: `q` is a queue whose chain from `head` is
finite, consists of the elements `ps` in this order, ends in an absent next-reference and
has exactly `q_size` elements, each of them holding a string. -/
def chain_formed (h : Heap) (q : Ptr) (ps : List Ptr) : Prop :=
  q ≠ 0 ∧ (∃ hd tl, h q = some (Block.queue hd tl (ps.length : Int)) ∧ is_chain h hd ps) ∧
    ∀ a, a ∈ ps → ∃ s, load_key h a = Res.ok s

/-- The queue at `q` satisfies the invariants of the data model, with the elements `ps`
from head to tail: its chain is well formed, and `tail` is the last element of the chain,
or absent when the chain is empty. -/
def well_formed (h : Heap) (q : Ptr) (ps : List Ptr) : Prop :=
  chain_formed h q ps ∧ load_tail h q = Res.ok (ps.getLast?.getD 0)

/-- The strings of the elements `ps`, in order. -/
def strings (h : Heap) (ps : List Ptr) : List CStr := ps.map (key_at h)

/-! ## Concrete heaps and sequences of calls -/

/-- The strings of the chain that starts at `p`, read by following the next-references
(`fuel` bounds the number of elements read). -/
def read_chain : Nat → Heap → Ptr → Res (List CStr)
  | 0, _, _ => Res.fault Fault.out_of_fuel
  | fuel + 1, h, p =>
    if p = 0 then pure []
    else do
      let s ← load_key h p
      let n ← load_next h p
      let rest ← read_chain fuel h n
      pure (s :: rest)

/-- The strings of the queue at `q`, from head to tail. -/
def queue_strings (fuel : Nat) (h : Heap) (q : Ptr) : Res (List CStr) := do
  let hd ← load_head h q
  read_chain fuel h hd

/-- The scenario of inserting "b", "a" and "c" at the tail of a new queue: the results of
the three insertions and the heap they leave. The queue is at address `1`, the elements at
`2`, `4` and `6`, their strings at `3`, `5` and `7`. -/
def tail_scenario : Res (List Bool × Heap) := do
  let (q, h) ← q_new Heap.empty 1
  let (b1, h) ← q_insert_tail h q [98] 2 3
  let (b2, h) ← q_insert_tail h q [97] 4 5
  let (b3, h) ← q_insert_tail h q [99] 6 7
  pure ([b1, b2, b3], h)

/-- A heap with the empty queue that `q_new` creates at address `1`, and a caller's buffer
of two bytes at address `9`. -/
def heap_new : Heap := fun a =>
  match a with
  | 1 => some (Block.queue 0 0 0)
  | 9 => some (Block.chars 2 none)
  | _ => none

/-- A heap with a well-formed queue at address `1` that holds the one string "a", in the
element at `2`, and a caller's buffer of two bytes at address `9`. -/
def heap_one : Heap := fun a =>
  match a with
  | 1 => some (Block.queue 2 2 1)
  | 2 => some (Block.ele (some 3) (some 0))
  | 3 => some (Block.chars 8 (some [97]))
  | 9 => some (Block.chars 2 none)
  | _ => none

/-- A heap with a well-formed queue at address `1` that holds "b", "a" and "c" in the
elements `2`, `4` and `6`, and a caller's buffer of two bytes at address `9`. -/
def heap_bac : Heap := fun a =>
  match a with
  | 1 => some (Block.queue 2 6 3)
  | 2 => some (Block.ele (some 3) (some 4))
  | 3 => some (Block.chars 8 (some [98]))
  | 4 => some (Block.ele (some 5) (some 6))
  | 5 => some (Block.chars 8 (some [97]))
  | 6 => some (Block.ele (some 7) (some 0))
  | 7 => some (Block.chars 8 (some [99]))
  | 9 => some (Block.chars 2 none)
  | _ => none

/-- A heap with a well-formed queue at address `1` that holds the one string "hello", and a
caller's buffer of two bytes at address `9`. -/
def heap_hello : Heap := fun a =>
  match a with
  | 1 => some (Block.queue 2 2 1)
  | 2 => some (Block.ele (some 3) (some 0))
  | 3 => some (Block.chars 8 (some [104, 101, 108, 108, 111]))
  | 9 => some (Block.chars 2 none)
  | _ => none

/-- A heap that holds nothing but a caller's buffer of two bytes at address `9`. -/
def heap_buf : Heap := fun a =>
  match a with
  | 9 => some (Block.chars 2 none)
  | _ => none

/-- The scenario of `q_insert_head(q, "x")` on a new queue followed at once by
`q_remove_head` into the buffer at `9`: the two results, the buffer, and the head, the tail
and the count of the queue afterwards. -/
def insert_remove_scenario : Res (Bool × Bool × Option Block × Ptr × Ptr × Int) := do
  let (q, h) ← q_new heap_buf 1
  let (b1, h) ← q_insert_head h q [120] 2 3
  let (b2, h) ← q_remove_head h q 9 2
  let hd ← load_head h q
  let tl ← load_tail h q
  let n ← q_size h q
  pure (b1, b2, h 9, hd, tl, n)

/-- The heap after `q_insert_head(q, "x")` on the empty queue of `heap_new`, with the new
element at address `2` and its string at `3`. -/
def heap_x : Heap :=
  match q_insert_head heap_new 1 [120] 2 3 with
  | Res.ok r => r.2
  | Res.fault _ => heap_new

/-- The heap after a further `q_insert_head(q, "y")`, with the new element at address `4`
and its string at `5`. -/
def heap_yx : Heap :=
  match q_insert_head heap_x 1 [121] 4 5 with
  | Res.ok r => r.2
  | Res.fault _ => heap_x

/-- The block at `q` is a queue whose count is `n`. -/
def has_size (h : Heap) (q : Ptr) (n : Int) : Prop :=
  ∃ hd tl, h q = some (Block.queue hd tl n)

/-- A call to the queue: an insertion with the results of its two calls to `malloc`, or a
removal with the caller's buffer and its size. -/
inductive Op where
  | insert_head (s : CStr) (r1 r2 : Ptr)
  | insert_tail (s : CStr) (r1 r2 : Ptr)
  | remove_head (sp : Ptr) (bufsize : Nat)

/-- The call is an insertion. -/
def Op.is_insert : Op → Bool
  | Op.insert_head _ _ _ => true
  | Op.insert_tail _ _ _ => true
  | Op.remove_head _ _ => false

/-- One call on the queue at `q`. -/
def run_op (h : Heap) (q : Ptr) : Op → Res (Bool × Heap)
  | Op.insert_head s r1 r2 => q_insert_head h q s r1 r2
  | Op.insert_tail s r1 r2 => q_insert_tail h q s r1 r2
  | Op.remove_head sp bufsize => q_remove_head h q sp bufsize

/-- A sequence of calls on the queue at `q`, in order: what each call returned, and the heap
at the end. -/
def run_ops (h : Heap) (q : Ptr) : List Op → Res (List Bool × Heap)
  | [] => pure ([], h)
  | op :: ops => do
    let (b, h) ← run_op h q op
    let (bs, h) ← run_ops h q ops
    pure (b :: bs, h)

/-- The number of insertions among `ops` that returned success, `bs` being what the calls
returned. -/
def inserts_ok : List Op → List Bool → Nat
  | op :: ops, b :: bs => (if op.is_insert && b then 1 else 0) + inserts_ok ops bs
  | _, _ => 0

/-- The number of removals among `ops` that returned success. -/
def removes_ok : List Op → List Bool → Nat
  | op :: ops, b :: bs => (if !op.is_insert && b then 1 else 0) + removes_ok ops bs
  | _, _ => 0

/-- A sequence of calls: "x" is inserted at the head, "y" at the tail, the head is removed
into the buffer at `9`, and an insertion whose second allocation fails is attempted. -/
def sample_ops : List Op :=
  [Op.insert_head [120] 2 3, Op.insert_tail [121] 4 5, Op.remove_head 9 2,
    Op.insert_head [122] 6 0]

/-- The heap after `sample_ops` on the new queue at address `1` of `heap_buf`. -/
def heap_sample : Heap :=
  match run_ops (heap_buf.set 1 (some (Block.queue 0 0 0))) 1 sample_ops with
  | Res.ok r => r.2
  | Res.fault _ => heap_buf

/-- A sequence of calls: "a" and "b" are inserted at the head, then the head is removed
twice into the buffer at `9`. -/
def double_remove_ops : List Op :=
  [Op.insert_head [97] 2 3, Op.insert_head [98] 4 5, Op.remove_head 9 2, Op.remove_head 9 2]

/-- The elements of the chain that starts at `p`, read by following the next-references
(`fuel` bounds the number of elements read). -/
def read_elems : Nat → Heap → Ptr → Res (List Ptr)
  | 0, _, _ => Res.fault Fault.out_of_fuel
  | fuel + 1, h, p =>
    if p = 0 then pure []
    else do
      let n ← load_next h p
      let rest ← read_elems fuel h n
      pure (p :: rest)

/-- The elements of the queue at `q`, from head to tail. -/
def queue_elems (fuel : Nat) (h : Heap) (q : Ptr) : Res (List Ptr) := do
  let hd ← load_head h q
  read_elems fuel h hd

/-- A heap with a well-formed queue at address `1` whose two elements `2` and `4` both hold
the string "a". -/
def heap_aa : Heap := fun a =>
  match a with
  | 1 => some (Block.queue 2 4 2)
  | 2 => some (Block.ele (some 3) (some 4))
  | 3 => some (Block.chars 8 (some [97]))
  | 4 => some (Block.ele (some 5) (some 0))
  | 5 => some (Block.chars 8 (some [97]))
  | _ => none

/-- A heap with a well-formed queue at address `1` that holds "b" in the element `2` and
"a" in the element `4`. -/
def heap_ba : Heap := fun a =>
  match a with
  | 1 => some (Block.queue 2 4 2)
  | 2 => some (Block.ele (some 3) (some 4))
  | 3 => some (Block.chars 8 (some [98]))
  | 4 => some (Block.ele (some 5) (some 0))
  | 5 => some (Block.chars 8 (some [97]))
  | _ => none

/-- The heap `heap_aa` after the split of `merge_sort`: the chain of the element `2` and the
chain of the element `4` are the two halves, each ending in an absent next-reference. -/
def heap_aa_split : Heap := fun a =>
  match a with
  | 1 => some (Block.queue 2 4 2)
  | 2 => some (Block.ele (some 3) (some 0))
  | 3 => some (Block.chars 8 (some [97]))
  | 4 => some (Block.ele (some 5) (some 0))
  | 5 => some (Block.chars 8 (some [97]))
  | _ => none

/-- The heap after `q_insert_head(q, "x")` on a new queue at address `1` followed by
`q_remove_head` into the buffer at `9`. -/
def heap_after_remove : Heap :=
  match (do
    let (q, h) ← q_new heap_buf 1
    let (_, h) ← q_insert_head h q [120] 2 3
    let (_, h) ← q_remove_head h q 9 2
    pure h : Res Heap) with
  | Res.ok h => h
  | Res.fault _ => heap_buf

/-- The heap after `q_insert_head(q, "a")`, `q_insert_head(q, "b")` and `q_sort(q)` on a
new queue at address `1`. -/
def heap_after_sort : Heap :=
  match (do
    let (q, h) ← q_new heap_buf 1
    let (_, h) ← q_insert_head h q [97] 2 3
    let (_, h) ← q_insert_head h q [98] 4 5
    q_sort 8 h q : Res Heap) with
  | Res.ok h => h
  | Res.fault _ => heap_buf

/-! ## Executions -/

@[simp] theorem Res.pure_eq {α : Type} (a : α) : (pure a : Res α) = Res.ok a := rfl

@[simp] theorem Res.ok_bind {α β : Type} (a : α) (f : α → Res β) :
    (Res.ok a >>= f) = f a := rfl

@[simp] theorem Res.fault_bind {α β : Type} (e : Fault) (f : α → Res β) :
    (Res.fault e >>= f) = Res.fault e := rfl

theorem Res.bind_eq_ok {α β : Type} {x : Res α} {f : α → Res β} {b : β} :
    (x >>= f) = Res.ok b ↔ ∃ a, x = Res.ok a ∧ f a = Res.ok b := by
  cases x with
  | ok a => simp
  | fault e => simp

/-! ## Heap updates -/

@[simp] theorem Heap.set_same (h : Heap) (p : Ptr) (b : Option Block) : (h.set p b) p = b := by
  simp [Heap.set]

theorem Heap.set_ne (h : Heap) {p a : Ptr} (b : Option Block) (hne : a ≠ p) :
    (h.set p b) a = h a := by
  simp [Heap.set, hne]

theorem load_next_eq_ok {h : Heap} {p n : Ptr} :
    load_next h p = Res.ok n ↔ p ≠ 0 ∧ ∃ v, h p = some (Block.ele v (some n)) := by
  unfold load_next
  by_cases hp : p = 0
  · simp [hp]
  · rcases hb : h p with _ | ⟨_, _, _⟩ | ⟨v, _ | m⟩ | ⟨_, _⟩ <;> simp [hp, eq_comm]

theorem load_value_eq_ok {h : Heap} {p v : Ptr} :
    load_value h p = Res.ok v ↔ p ≠ 0 ∧ ∃ n, h p = some (Block.ele (some v) n) := by
  unfold load_value
  by_cases hp : p = 0
  · simp [hp]
  · rcases hb : h p with _ | ⟨_, _, _⟩ | ⟨_ | w, m⟩ | ⟨_, _⟩ <;> simp [hp, eq_comm]

theorem load_str_eq_ok {h : Heap} {p : Ptr} {s : CStr} :
    load_str h p = Res.ok s ↔ p ≠ 0 ∧ ∃ cap, h p = some (Block.chars cap (some s)) := by
  unfold load_str
  by_cases hp : p = 0
  · simp [hp]
  · rcases hb : h p with _ | ⟨_, _, _⟩ | ⟨_, _⟩ | ⟨c, _ | t⟩ <;> simp [hp, eq_comm]

theorem store_next_eq_ok {h h1 : Heap} {p n : Ptr} :
    store_next h p n = Res.ok h1 ↔
      p ≠ 0 ∧ ∃ v m, h p = some (Block.ele v m) ∧ h1 = h.set p (some (Block.ele v (some n))) := by
  unfold store_next
  by_cases hp : p = 0
  · simp [hp]
  · rcases hb : h p with _ | ⟨_, _, _⟩ | ⟨v, m⟩ | ⟨_, _⟩ <;> simp [hp, eq_comm]

/-! ## Chains -/

theorem is_seg_append {h : Heap} {as bs : List Ptr} {p q : Ptr} :
    is_seg h p (as ++ bs) q ↔ ∃ m, is_seg h p as m ∧ is_seg h m bs q := by
  induction as generalizing p with
  | nil => simp [is_seg]
  | cons a as ih =>
    show (p = a ∧ ∃ n, load_next h a = Res.ok n ∧ is_seg h n (as ++ bs) q) ↔
      ∃ m, (p = a ∧ ∃ n, load_next h a = Res.ok n ∧ is_seg h n as m) ∧ is_seg h m bs q
    constructor
    · rintro ⟨rfl, n, hn, hr⟩
      obtain ⟨m, h1, h2⟩ := ih.1 hr
      exact ⟨m, ⟨rfl, n, hn, h1⟩, h2⟩
    · rintro ⟨m, ⟨rfl, n, hn, h1⟩, h2⟩
      exact ⟨rfl, n, hn, ih.2 ⟨m, h1, h2⟩⟩

theorem is_chain_nil {h : Heap} {p : Ptr} : is_chain h p [] ↔ p = 0 := by
  simp [is_chain, is_seg]

theorem is_chain_cons {h : Heap} {p a : Ptr} {as : List Ptr} :
    is_chain h p (a :: as) ↔ p = a ∧ ∃ n, load_next h a = Res.ok n ∧ is_chain h n as := by
  simp [is_chain, is_seg]

theorem is_chain_ne_zero {h : Heap} {p a : Ptr} {as : List Ptr}
    (hc : is_chain h p (a :: as)) : p ≠ 0 := by
  obtain ⟨rfl, n, hn, _⟩ := is_chain_cons.1 hc
  exact (load_next_eq_ok.1 hn).1

theorem is_chain_unique {h : Heap} {p : Ptr} {as bs : List Ptr}
    (h1 : is_chain h p as) (h2 : is_chain h p bs) : as = bs := by
  induction as generalizing p bs with
  | nil =>
    cases bs with
    | nil => rfl
    | cons b bs => exact absurd (is_chain_nil.1 h1) (is_chain_ne_zero h2)
  | cons a as ih =>
    cases bs with
    | nil => exact absurd (is_chain_nil.1 h2) (is_chain_ne_zero h1)
    | cons b bs =>
      obtain ⟨rfl, n, hn, hc⟩ := is_chain_cons.1 h1
      obtain ⟨hpb, m, hm, hd⟩ := is_chain_cons.1 h2
      subst hpb
      rw [hn] at hm
      cases hm
      rw [ih hc hd]

theorem is_chain_suffix {h : Heap} {p : Ptr} {as bs : List Ptr}
    (hc : is_chain h p (as ++ bs)) : ∃ m, is_seg h p as m ∧ is_chain h m bs :=
  is_seg_append.1 hc

theorem is_chain_nodup {h : Heap} {p : Ptr} {as : List Ptr}
    (hc : is_chain h p as) : as.Nodup := by
  induction as generalizing p with
  | nil => exact List.nodup_nil
  | cons a as ih =>
    obtain ⟨rfl, n, hn, hr⟩ := is_chain_cons.1 hc
    refine List.nodup_cons.2 ⟨?_, ih hr⟩
    intro hmem
    obtain ⟨xs, ys, rfl⟩ := List.append_of_mem hmem
    obtain ⟨m, _, hm⟩ := is_chain_suffix hr
    have hpm : m = p := (is_chain_cons.1 hm).1
    subst hpm
    have := is_chain_unique hc hm
    have hlen := congrArg List.length this
    simp at hlen
    omega

theorem is_seg_congr {h h1 : Heap} {p q : Ptr} {as : List Ptr}
    (hs : is_seg h p as q) (hfr : ∀ a ∈ as, h1 a = h a) : is_seg h1 p as q := by
  induction as generalizing p with
  | nil => exact hs
  | cons a as ih =>
    obtain ⟨rfl, n, hn, hr⟩ := hs
    refine ⟨rfl, n, ?_, ih hr (fun b hb => hfr b (List.mem_cons_of_mem _ hb))⟩
    have := hfr p (List.mem_cons_self _ _)
    rw [load_next_eq_ok] at hn ⊢
    rw [this]
    exact hn

theorem walk_seg {h : Heap} {p q : Ptr} {as : List Ptr} (hs : is_seg h p as q) :
    walk h as.length p = Res.ok q := by
  induction as generalizing p with
  | nil => simp [walk, is_seg] at *; exact hs
  | cons a as ih =>
    obtain ⟨rfl, n, hn, hr⟩ := hs
    simp [walk, hn, ih hr]

/-! ## Heaps that differ in next-references only -/

theorem relinked_refl (S : List Ptr) (h : Heap) : relinked S h h := fun _ => Or.inl rfl

theorem relinked_trans {S : List Ptr} {h h1 h2 : Heap}
    (h01 : relinked S h h1) (h12 : relinked S h1 h2) : relinked S h h2 := by
  intro a
  rcases h01 a with e1 | ⟨hm, v, n, m, e1, e1'⟩
  · rcases h12 a with e2 | ⟨hm, v, n, m, e2, e2'⟩
    · exact Or.inl (e2.trans e1)
    · exact Or.inr ⟨hm, v, n, m, e1 ▸ e2, e2'⟩
  · rcases h12 a with e2 | ⟨_, v', n', m', e2, e2'⟩
    · exact Or.inr ⟨hm, v, n, m, e1, e2.trans e1'⟩
    · rw [e1'] at e2
      cases e2
      exact Or.inr ⟨hm, v, n, m', e1, e2'⟩

theorem relinked_mono {S T : List Ptr} {h h1 : Heap} (hst : ∀ a ∈ S, a ∈ T)
    (hr : relinked S h h1) : relinked T h h1 := by
  intro a
  rcases hr a with e | ⟨hm, rest⟩
  · exact Or.inl e
  · exact Or.inr ⟨hst a hm, rest⟩

theorem relinked_frame {S : List Ptr} {h h1 : Heap} (hr : relinked S h h1) {a : Ptr}
    (ha : a ∉ S) : h1 a = h a := by
  rcases hr a with e | ⟨hm, _⟩
  · exact e
  · exact absurd hm ha

theorem relinked_store_next {S : List Ptr} {h h1 : Heap} {p n : Ptr}
    (hs : store_next h p n = Res.ok h1) (hp : p ∈ S) : relinked S h h1 := by
  obtain ⟨_, v, m, hv, rfl⟩ := store_next_eq_ok.1 hs
  intro a
  by_cases ha : a = p
  · subst ha
    exact Or.inr ⟨hp, v, m, some n, hv, Heap.set_same _ _ _⟩
  · exact Or.inl (Heap.set_ne _ _ ha)

theorem relinked_load_value {S : List Ptr} {h h1 : Heap} (hr : relinked S h h1) (a : Ptr) :
    load_value h1 a = load_value h a := by
  rcases hr a with e | ⟨_, v, n, m, e, e1⟩
  · simp [load_value, e]
  · cases v <;> simp [load_value, e, e1]

theorem relinked_load_str {S : List Ptr} {h h1 : Heap} (hr : relinked S h h1) (a : Ptr) :
    load_str h1 a = load_str h a := by
  rcases hr a with e | ⟨_, v, n, m, e, e1⟩
  · simp [load_str, e]
  · simp [load_str, e, e1]

theorem relinked_load_key {S : List Ptr} {h h1 : Heap} (hr : relinked S h h1) (a : Ptr) :
    load_key h1 a = load_key h a := by
  unfold load_key
  rw [relinked_load_value hr a]
  cases load_value h a with
  | ok v => exact relinked_load_str hr v
  | fault e => rfl

theorem relinked_key_at {S : List Ptr} {h h1 : Heap} (hr : relinked S h h1) (a : Ptr) :
    key_at h1 a = key_at h a := by
  unfold key_at
  rw [relinked_load_key hr a]

theorem relinked_seg {S : List Ptr} {h h1 : Heap} (hr : relinked S h h1) {p q : Ptr}
    {as : List Ptr} (hd : ∀ a ∈ as, a ∉ S) (hs : is_seg h p as q) : is_seg h1 p as q :=
  is_seg_congr hs (fun a ha => relinked_frame hr (hd a ha))

theorem load_key_of_has {h : Heap} {a : Ptr} (hk : ∃ s, load_key h a = Res.ok s) :
    load_key h a = Res.ok (key_at h a) := by
  obtain ⟨s, hs⟩ := hk
  simp [key_at, hs]

/-! ## The order of `strcmp` -/

theorem strcmp_antisymm (a b : CStr) : strcmp b a = - strcmp a b := by
  induction a generalizing b with
  | nil => cases b <;> simp [strcmp]
  | cons x a ih =>
    cases b with
    | nil => simp [strcmp]
    | cons y b =>
      simp only [strcmp]
      by_cases h1 : x < y
      · have h2 : ¬ y < x := by omega
        simp [h1, h2]
      · by_cases h2 : y < x
        · simp [h1, h2]
        · simp [h1, h2, ih]

theorem strcmp_le_of_not_lt {a b : CStr} (h : ¬ strcmp a b < 0) : strcmp b a ≤ 0 := by
  rw [strcmp_antisymm a b]; omega

theorem strcmp_not_lt_of_le {a b : CStr} (h : strcmp b a ≤ 0) : ¬ strcmp a b < 0 := by
  rw [strcmp_antisymm a b] at h; omega

/-! ## The merge on lists -/

theorem merge_spec_nil_left (key : Ptr → CStr) (R : List Ptr) : merge_spec key [] R = R := by
  simp [merge_spec]

theorem merge_spec_nil_right (key : Ptr → CStr) (L : List Ptr) : merge_spec key L [] = L := by
  cases L <;> simp [merge_spec]

theorem merge_spec_cons_lt {key : Ptr → CStr} {x y : Ptr} (L R : List Ptr)
    (h : strcmp (key x) (key y) < 0) :
    merge_spec key (x :: L) (y :: R) = x :: merge_spec key L (y :: R) := by
  rw [merge_spec]; simp [h]

theorem merge_spec_cons_ge {key : Ptr → CStr} {x y : Ptr} (L R : List Ptr)
    (h : ¬ strcmp (key x) (key y) < 0) :
    merge_spec key (x :: L) (y :: R) = y :: merge_spec key (x :: L) R := by
  rw [merge_spec]; simp [h]

theorem merge_spec_perm (key : Ptr → CStr) (L R : List Ptr) :
    (merge_spec key L R).Perm (L ++ R) := by
  induction L generalizing R with
  | nil => simp [merge_spec_nil_left]
  | cons x L ihL =>
    induction R with
    | nil => simp [merge_spec_nil_right]
    | cons y R ihR =>
      by_cases h : strcmp (key x) (key y) < 0
      · rw [merge_spec_cons_lt L R h]
        exact (ihL (y :: R)).cons x
      · rw [merge_spec_cons_ge L R h]
        exact (ihR.cons y).trans (List.perm_middle.symm)

theorem merge_spec_chain (key : Ptr → CStr) (a : Ptr) (L R : List Ptr)
    (hL : List.Chain (key_le key) a L) (hR : List.Chain (key_le key) a R) :
    List.Chain (key_le key) a (merge_spec key L R) := by
  induction L generalizing a R with
  | nil => simpa [merge_spec_nil_left] using hR
  | cons x L ihL =>
    induction R generalizing a with
    | nil => simpa [merge_spec_nil_right] using hL
    | cons y R ihR =>
      obtain ⟨hax, hxL⟩ := List.chain_cons.1 hL
      obtain ⟨hay, hyR⟩ := List.chain_cons.1 hR
      by_cases h : strcmp (key x) (key y) < 0
      · rw [merge_spec_cons_lt L R h]
        refine List.chain_cons.2 ⟨hax, ihL x (y :: R) hxL (List.chain_cons.2 ⟨?_, hyR⟩)⟩
        exact le_of_lt h
      · rw [merge_spec_cons_ge L R h]
        refine List.chain_cons.2 ⟨hay, ihR y (List.chain_cons.2 ⟨?_, hxL⟩) hyR⟩
        exact strcmp_le_of_not_lt h

theorem merge_spec_sorted (key : Ptr → CStr) (L R : List Ptr)
    (hL : List.Chain' (key_le key) L) (hR : List.Chain' (key_le key) R) :
    List.Chain' (key_le key) (merge_spec key L R) := by
  cases L with
  | nil => simpa [merge_spec_nil_left] using hR
  | cons x L =>
    cases R with
    | nil => simpa [merge_spec_nil_right] using hL
    | cons y R =>
      by_cases h : strcmp (key x) (key y) < 0
      · rw [merge_spec_cons_lt L R h]
        exact merge_spec_chain key x L (y :: R) hL (List.chain_cons.2 ⟨le_of_lt h, hR⟩)
      · rw [merge_spec_cons_ge L R h]
        exact merge_spec_chain key y (x :: L) R
          (List.chain_cons.2 ⟨strcmp_le_of_not_lt h, hL⟩) hR

/-! ## The loops of the merge -/

theorem append_merged_spec {S : List Ptr} {st : MergeState} {A : List Ptr} {x l1 l r : Ptr}
    (hm : merged_ok st.heap st.head st.merge A l r) (hA : A.Nodup)
    (hAS : ∀ a, a ∈ A → a ∈ S) (hx : x ∉ A) (hn : load_next st.heap x = Res.ok l1) :
    ∃ st1, append_merged st x = Res.ok st1 ∧ st1.left = st.left ∧ st1.right = st.right ∧
      st1.merge = x ∧ relinked S st.heap st1.heap ∧
      (∀ a, a ∉ A → st1.heap a = st.heap a) ∧
      ∀ r1, merged_ok st1.heap st1.head x (A ++ [x]) l1 r1 := by
  rcases hm with ⟨rfl, hm0⟩ | ⟨A', rfl, hseg, hnx⟩
  · refine ⟨{ st with head := x, merge := x }, ?_, rfl, rfl, rfl, relinked_refl _ _,
      fun _ _ => rfl, fun r1 => Or.inr ⟨[], rfl, rfl, Or.inl hn⟩⟩
    simp [append_merged, hm0]
  · have hmne : st.merge ≠ 0 := by
      rcases hnx with e | e <;> exact (load_next_eq_ok.1 e).1
    have hmele : ∃ v n, st.heap st.merge = some (Block.ele v n) := by
      rcases hnx with e | e <;>
        exact (let ⟨_, v, hv⟩ := load_next_eq_ok.1 e; ⟨v, _, hv⟩)
    obtain ⟨v, n, hv⟩ := hmele
    have hxm : x ≠ st.merge := fun e => hx (by simp [e])
    have hstore : store_next st.heap st.merge x =
        Res.ok (st.heap.set st.merge (some (Block.ele v (some x)))) :=
      store_next_eq_ok.2 ⟨hmne, v, n, hv, rfl⟩
    have hload : load_next (st.heap.set st.merge (some (Block.ele v (some x)))) st.merge =
        Res.ok x := load_next_eq_ok.2 ⟨hmne, v, Heap.set_same _ _ _⟩
    have hfr : ∀ a, a ∉ A' ++ [st.merge] →
        (st.heap.set st.merge (some (Block.ele v (some x)))) a = st.heap a := by
      intro a ha
      exact Heap.set_ne _ _ (fun e => ha (by simp [e]))
    refine ⟨{ st with heap := st.heap.set st.merge (some (Block.ele v (some x))), merge := x },
      ?_, rfl, rfl, rfl, relinked_store_next hstore (hAS _ (by simp)), hfr, fun r1 => ?_⟩
    · simp [append_merged, hmne, hstore, hload]
    · refine Or.inr ⟨A' ++ [st.merge], rfl, ?_, Or.inl ?_⟩
      · refine is_seg_append.2 ⟨st.merge, is_seg_congr hseg ?_, rfl, x, hload, rfl⟩
        intro a ha
        refine Heap.set_ne _ _ ?_
        rintro rfl
        exact (List.disjoint_of_nodup_append hA) ha (by simp)
      · rw [load_next_eq_ok] at hn ⊢
        show x ≠ 0 ∧ ∃ w, (st.heap.set st.merge (some (Block.ele v (some x)))) x =
          some (Block.ele w (some l1))
        rw [Heap.set_ne _ _ hxm]
        exact hn

theorem load_next_congr {h h1 : Heap} {a : Ptr} (e : h1 a = h a) :
    load_next h1 a = load_next h a := by
  simp [load_next, e]

theorem merged_ok_symm {h : Heap} {hd m : Ptr} {A : List Ptr} {l r : Ptr}
    (hm : merged_ok h hd m A l r) : merged_ok h hd m A r l := by
  rcases hm with e | ⟨A', e, hs, hn⟩
  · exact Or.inl e
  · exact Or.inr ⟨A', e, hs, hn.symm⟩

theorem take_left_step {h0 : Heap} {S : List Ptr} {st : MergeState} {A L R : List Ptr}
    {x : Ptr} (inv : MergeInv h0 S st A (x :: L) R) :
    ∃ st1 l1, append_merged st st.left = Res.ok st1 ∧
      load_next st1.heap st1.left = Res.ok l1 ∧
      MergeInv h0 S { st1 with left := l1 } (A ++ [x]) L R := by
  obtain ⟨hlx, l1, hl1, hL⟩ := is_chain_cons.1 inv.left
  have hnd := inv.nodup
  have hA : A.Nodup := (List.nodup_append.1 hnd).1
  have hdisj := (List.nodup_append.1 hnd).2.2
  have hxA : x ∉ A := fun hx => hdisj hx (by simp)
  obtain ⟨st1, hap, hleft, hright, hmerge, hrel, hfr, hmo⟩ :=
    append_merged_spec (S := S) inv.merged hA
      (fun a ha => inv.sub a (by simp [ha])) hxA hl1
  have hfrL : ∀ a, a ∈ L → st1.heap a = st.heap a :=
    fun a ha => hfr a (fun haA => hdisj haA (by simp [ha]))
  have hfrR : ∀ a, a ∈ R → st1.heap a = st.heap a :=
    fun a ha => hfr a (fun haA => hdisj haA (by simp [ha]))
  refine ⟨st1, l1, by rw [hlx]; exact hap, ?_, ?_⟩
  · rw [hleft, hlx, load_next_congr (hfr x hxA)]
    exact hl1
  · refine ⟨?_, ?_, is_seg_congr hL hfrL, ?_, ?_, relinked_trans inv.heap hrel, ?_⟩
    · simpa using hnd
    · intro a ha
      exact inv.sub a (by simpa using ha)
    · show is_chain st1.heap st1.right R
      rw [hright]
      exact is_seg_congr inv.right hfrR
    · show merged_ok st1.heap st1.head st1.merge (A ++ [x]) l1 st1.right
      rw [hmerge]
      exact hmo _
    · intro a ha
      exact inv.keys a (by simp at ha ⊢; tauto)

theorem take_right_step {h0 : Heap} {S : List Ptr} {st : MergeState} {A L R : List Ptr}
    {y : Ptr} (inv : MergeInv h0 S st A L (y :: R)) :
    ∃ st1 r1, append_merged st st.right = Res.ok st1 ∧
      load_next st1.heap st1.right = Res.ok r1 ∧
      MergeInv h0 S { st1 with right := r1 } (A ++ [y]) L R := by
  obtain ⟨hry, r1, hr1, hR⟩ := is_chain_cons.1 inv.right
  have hnd := inv.nodup
  have hA : A.Nodup := (List.nodup_append.1 hnd).1
  have hdisj := (List.nodup_append.1 hnd).2.2
  have hyA : y ∉ A := fun hy => hdisj hy (by simp)
  obtain ⟨st1, hap, hleft, hright, hmerge, hrel, hfr, hmo⟩ :=
    append_merged_spec (S := S) inv.merged hA
      (fun a ha => inv.sub a (by simp [ha])) hyA hr1
  have hfrL : ∀ a, a ∈ L → st1.heap a = st.heap a :=
    fun a ha => hfr a (fun haA => hdisj haA (by simp [ha]))
  have hfrR : ∀ a, a ∈ R → st1.heap a = st.heap a :=
    fun a ha => hfr a (fun haA => hdisj haA (by simp [ha]))
  refine ⟨st1, r1, by rw [hry]; exact hap, ?_, ?_⟩
  · rw [hright, hry, load_next_congr (hfr y hyA)]
    exact hr1
  · refine ⟨?_, ?_, ?_, is_seg_congr hR hfrR, ?_, relinked_trans inv.heap hrel, ?_⟩
    · have hp : (A ++ [y] ++ (L ++ R)).Perm (A ++ (L ++ y :: R)) := by
        rw [List.append_assoc]
        exact List.Perm.append_left A (by simpa using (List.perm_middle : (L ++ y :: R).Perm (y :: (L ++ R))).symm)
      exact hp.nodup_iff.2 hnd
    · intro a ha
      exact inv.sub a (by simp at ha ⊢; tauto)
    · show is_chain st1.heap st1.left L
      rw [hleft]
      exact is_seg_congr inv.left hfrL
    · show merged_ok st1.heap st1.head st1.merge (A ++ [y]) st1.left r1
      rw [hmerge]
      exact merged_ok_symm (hmo _)
    · intro a ha
      exact inv.keys a (by simp at ha ⊢; tauto)

theorem take_left_spec {h0 : Heap} {S : List Ptr} (fuel : Nat) (st : MergeState)
    (A L R : List Ptr) (inv : MergeInv h0 S st A L R) (hf : L.length < fuel) :
    ∃ st1 T L1, take_left fuel st = Res.ok st1 ∧ L = T ++ L1 ∧
      MergeInv h0 S st1 (A ++ T) L1 R ∧
      merge_spec (key_at h0) L R = T ++ merge_spec (key_at h0) L1 R ∧
      (∀ x L2, L1 = x :: L2 →
        ∃ y R1, R = y :: R1 ∧ ¬ strcmp (key_at h0 x) (key_at h0 y) < 0) := by
  induction fuel generalizing st A L with
  | zero => omega
  | succ fuel ih =>
    cases L with
    | nil =>
      have hl0 : st.left = 0 := is_chain_nil.1 inv.left
      refine ⟨st, [], [], ?_, rfl, by simpa using inv, rfl, ?_⟩
      · simp [take_left, hl0]
      · intro x L2 hc; cases hc
    | cons x L =>
      have hlx : st.left = x := (is_chain_cons.1 inv.left).1
      have hx0 : st.left ≠ 0 := is_chain_ne_zero inv.left
      obtain ⟨st1, l1, hap, hld, inv1⟩ := take_left_step inv
      obtain ⟨st2, T, L1, hrun, hsplit, inv2, hms, hexit⟩ :=
        ih { st1 with left := l1 } (A ++ [x]) L inv1 (by simp at hf; omega)
      cases R with
      | nil =>
        have hr0 : st.right = 0 := is_chain_nil.1 inv.right
        refine ⟨st2, x :: T, L1, ?_, by simp [hsplit], by simpa using inv2, ?_, hexit⟩
        · rw [take_left]
          simp [hx0, hr0, hap, hld, hrun]
        · simp [merge_spec_nil_right, hsplit]
      | cons y R =>
        have hry : st.right = y := (is_chain_cons.1 inv.right).1
        have hy0 : st.right ≠ 0 := is_chain_ne_zero inv.right
        have hkx : load_key st.heap st.left = Res.ok (key_at h0 x) := by
          rw [relinked_load_key inv.heap, hlx]
          exact load_key_of_has (inv.keys x (by simp))
        have hky : load_key st.heap st.right = Res.ok (key_at h0 y) := by
          rw [relinked_load_key inv.heap, hry]
          exact load_key_of_has (inv.keys y (by simp))
        by_cases hlt : strcmp (key_at h0 x) (key_at h0 y) < 0
        · refine ⟨st2, x :: T, L1, ?_, by simp [hsplit], by simpa using inv2, ?_, hexit⟩
          · rw [take_left]
            simp [hx0, hy0, hkx, hky, hlt, hap, hld, hrun]
          · rw [merge_spec_cons_lt L R hlt, hms]
            simp
        · refine ⟨st, [], x :: L, ?_, rfl, by simpa using inv, rfl, ?_⟩
          · rw [take_left]
            simp [hx0, hy0, hkx, hky, hlt]
          · intro x1 L2 hc
            cases hc
            exact ⟨y, R, rfl, hlt⟩

theorem take_right_spec {h0 : Heap} {S : List Ptr} (fuel : Nat) (st : MergeState)
    (A L R : List Ptr) (inv : MergeInv h0 S st A L R) (hf : R.length < fuel) :
    ∃ st1 T R1, take_right fuel st = Res.ok st1 ∧ R = T ++ R1 ∧
      MergeInv h0 S st1 (A ++ T) L R1 ∧
      merge_spec (key_at h0) L R = T ++ merge_spec (key_at h0) L R1 ∧
      (∀ y R2, R1 = y :: R2 →
        ∃ x L1, L = x :: L1 ∧ ¬ strcmp (key_at h0 y) (key_at h0 x) ≤ 0) := by
  induction fuel generalizing st A R with
  | zero => omega
  | succ fuel ih =>
    cases R with
    | nil =>
      have hr0 : st.right = 0 := is_chain_nil.1 inv.right
      refine ⟨st, [], [], ?_, rfl, by simpa using inv, rfl, ?_⟩
      · simp [take_right, hr0]
      · intro x L2 hc; cases hc
    | cons y R =>
      have hry : st.right = y := (is_chain_cons.1 inv.right).1
      have hy0 : st.right ≠ 0 := is_chain_ne_zero inv.right
      obtain ⟨st1, r1, hap, hld, inv1⟩ := take_right_step inv
      obtain ⟨st2, T, R1, hrun, hsplit, inv2, hms, hexit⟩ :=
        ih { st1 with right := r1 } (A ++ [y]) R inv1 (by simp at hf; omega)
      cases L with
      | nil =>
        have hl0 : st.left = 0 := is_chain_nil.1 inv.left
        refine ⟨st2, y :: T, R1, ?_, by simp [hsplit], by simpa using inv2, ?_, hexit⟩
        · rw [take_right]
          simp [hy0, hl0, hap, hld, hrun]
        · simp [merge_spec_nil_left, hsplit]
      | cons x L =>
        have hlx : st.left = x := (is_chain_cons.1 inv.left).1
        have hx0 : st.left ≠ 0 := is_chain_ne_zero inv.left
        have hkx : load_key st.heap st.left = Res.ok (key_at h0 x) := by
          rw [relinked_load_key inv.heap, hlx]
          exact load_key_of_has (inv.keys x (by simp))
        have hky : load_key st.heap st.right = Res.ok (key_at h0 y) := by
          rw [relinked_load_key inv.heap, hry]
          exact load_key_of_has (inv.keys y (by simp))
        by_cases hle : strcmp (key_at h0 y) (key_at h0 x) ≤ 0
        · refine ⟨st2, y :: T, R1, ?_, by simp [hsplit], by simpa using inv2, ?_, hexit⟩
          · rw [take_right]
            simp [hx0, hy0, hkx, hky, hle, hap, hld, hrun]
          · rw [merge_spec_cons_ge L R (strcmp_not_lt_of_le hle), hms]
            simp
        · refine ⟨st, [], y :: R, ?_, rfl, by simpa using inv, rfl, ?_⟩
          · rw [take_right]
            simp [hx0, hy0, hkx, hky, hle]
          · intro y1 R2 hc
            cases hc
            exact ⟨x, L, rfl, hle⟩

theorem is_chain_zero_iff {h : Heap} {p : Ptr} {as : List Ptr} (hc : is_chain h p as) :
    p = 0 ↔ as = [] := by
  cases as with
  | nil => simp [is_chain_nil.1 hc]
  | cons a as => simp [is_chain_ne_zero hc]

theorem merge_loop_spec {h0 : Heap} {S : List Ptr} (fuel : Nat) (st : MergeState)
    (A L R : List Ptr) (inv : MergeInv h0 S st A L R) (hf : L.length + R.length < fuel) :
    ∃ st1, merge_loop fuel st = Res.ok st1 ∧
      MergeInv h0 S st1 (A ++ merge_spec (key_at h0) L R) [] [] := by
  induction fuel generalizing st A L R with
  | zero => omega
  | succ fuel ih =>
    by_cases hdone : L = [] ∧ R = []
    · obtain ⟨rfl, rfl⟩ := hdone
      have hl0 : st.left = 0 := is_chain_nil.1 inv.left
      have hr0 : st.right = 0 := is_chain_nil.1 inv.right
      refine ⟨st, by simp [merge_loop, hl0, hr0], ?_⟩
      simpa [merge_spec_nil_left] using inv
    · have hcond : st.left ≠ 0 ∨ st.right ≠ 0 := by
        by_contra hc
        push_neg at hc
        exact hdone ⟨(is_chain_zero_iff inv.left).1 hc.1, (is_chain_zero_iff inv.right).1 hc.2⟩
      obtain ⟨st1, T1, L1, hrun1, hL, inv1, hms1, hexit1⟩ :=
        take_left_spec (fuel + 1) st A L R inv (by omega)
      obtain ⟨st2, T2, R2, hrun2, hR, inv2, hms2, hexit2⟩ :=
        take_right_spec (fuel + 1) st1 (A ++ T1) L1 R inv1 (by omega)
      have hprog : T1 ≠ [] ∨ T2 ≠ [] := by
        by_contra hc
        push_neg at hc
        obtain ⟨rfl, rfl⟩ := hc
        simp only [List.nil_append] at hL hR
        subst hL hR
        cases L with
        | nil =>
          cases R with
          | nil => exact hdone ⟨rfl, rfl⟩
          | cons y R =>
            obtain ⟨x, L1, hx, _⟩ := hexit2 y R rfl
            cases hx
        | cons x L =>
          obtain ⟨y, R1, rfl, hxy⟩ := hexit1 x L rfl
          obtain ⟨x1, L1, hx, hyx⟩ := hexit2 y R1 rfl
          cases hx
          exact hyx (strcmp_le_of_not_lt hxy)
      have hlen : L1.length + R2.length < fuel := by
        have h1 := congrArg List.length hL
        have h2 := congrArg List.length hR
        simp only [List.length_append] at h1 h2
        have h3 : 0 < T1.length + T2.length := by
          rcases hprog with h | h
          · have := List.length_pos.2 h; omega
          · have := List.length_pos.2 h; omega
        omega
      obtain ⟨st3, hrun3, inv3⟩ := ih st2 (A ++ T1 ++ T2) L1 R2 inv2 hlen
      refine ⟨st3, ?_, ?_⟩
      · rw [merge_loop]
        simp [hcond, hrun1, hrun2, hrun3]
      · rw [hms1, hms2]
        simpa [List.append_assoc] using inv3

/-! ## `merge_sort` -/

theorem tdiv_two (n : Nat) : Int.tdiv (n : Int) 2 = ((n / 2 : Nat) : Int) :=
  (Int.ofNat_tdiv n 2).symm

theorem relinked_key_fun {S : List Ptr} {h h1 : Heap} (hr : relinked S h h1) :
    key_at h1 = key_at h :=
  funext (relinked_key_at hr)

theorem merge_inv_final {h0 : Heap} {S : List Ptr} {st : MergeState} {A : List Ptr}
    (inv : MergeInv h0 S st A [] []) (hA : A ≠ []) : is_chain st.heap st.head A := by
  have hl0 : st.left = 0 := is_chain_nil.1 inv.left
  have hr0 : st.right = 0 := is_chain_nil.1 inv.right
  rcases inv.merged with ⟨e, _⟩ | ⟨A', e, hs, hn⟩
  · exact absurd e hA
  · rw [hl0, hr0, or_self] at hn
    rw [e]
    exact is_seg_append.2 ⟨st.merge, hs, rfl, 0, hn, rfl⟩

theorem is_chain_split {h h1 : Heap} {p mid : Ptr} {as bs : List Ptr}
    (hc : is_chain h p (as ++ mid :: bs)) (hs : store_next h mid 0 = Res.ok h1) :
    ∃ r, walk h as.length p = Res.ok mid ∧ load_next h mid = Res.ok r ∧
      is_chain h1 p (as ++ [mid]) ∧ is_chain h1 r bs := by
  have hnd := is_chain_nodup hc
  obtain ⟨m, hseg, hrest⟩ := is_chain_suffix hc
  obtain ⟨rfl, r, hr, hbs⟩ := is_chain_cons.1 hrest
  obtain ⟨hm0, v, n, hv, rfl⟩ := store_next_eq_ok.1 hs
  have hmas : m ∉ as := fun hm => (List.disjoint_of_nodup_append hnd) hm (by simp)
  have hmbs : m ∉ bs := (List.nodup_cons.1 (List.nodup_append.1 hnd).2.1).1
  refine ⟨r, walk_seg hseg, hr, ?_, ?_⟩
  · refine is_seg_append.2 ⟨m, is_seg_congr hseg ?_, rfl, 0, ?_, rfl⟩
    · intro a ha
      exact Heap.set_ne _ _ (fun e => hmas (e ▸ ha))
    · exact load_next_eq_ok.2 ⟨hm0, v, Heap.set_same _ _ _⟩
  · refine is_seg_congr hbs ?_
    intro a ha
    exact Heap.set_ne _ _ (fun e => hmbs (e ▸ ha))

theorem merge_sort_spec (fuel : Nat) (h : Heap) (head : Ptr) (ps : List Ptr)
    (hc : is_chain h head ps) (hk : ∀ a, a ∈ ps → ∃ s, load_key h a = Res.ok s)
    (hf : ps.length < fuel) :
    ∃ p1 h1 qs, merge_sort fuel h head (ps.length : Int) = Res.ok (p1, h1) ∧
      is_chain h1 p1 qs ∧ qs.Perm ps ∧ List.Chain' (key_le (key_at h)) qs ∧
      relinked ps h h1 := by
  induction fuel generalizing h head ps with
  | zero => omega
  | succ fuel ih =>
    by_cases hh0 : head = 0
    · have hps : ps = [] := (is_chain_zero_iff hc).1 hh0
      subst hps
      exact ⟨head, h, [], by simp [merge_sort, hh0], hc, List.Perm.refl _, List.chain'_nil,
        relinked_refl _ _⟩
    · obtain ⟨a, ps1, rfl⟩ : ∃ a ps1, ps = a :: ps1 := by
        cases ps with
        | nil => exact absurd ((is_chain_zero_iff hc).2 rfl) hh0
        | cons a ps1 => exact ⟨a, ps1, rfl⟩
      obtain ⟨rfl, hn, hhn, hc1⟩ := is_chain_cons.1 hc
      by_cases hn0 : hn = 0
      · have hps1 : ps1 = [] := (is_chain_zero_iff hc1).1 hn0
        subst hps1
        exact ⟨head, h, [head], by simp [merge_sort, hh0, hhn, hn0], hc, List.Perm.refl _,
          List.chain'_singleton _, relinked_refl _ _⟩
      · have hps1 : ps1 ≠ [] := fun e => hn0 ((is_chain_zero_iff hc1).2 e)
        generalize hps : head :: ps1 = ps at hc hk hf
        have hlen2 : 2 ≤ ps.length := by
          rw [← hps]
          have := List.length_pos.2 hps1
          simp; omega
        generalize hnlen : ps.length = n at hf hlen2
        -- the two halves
        have hdrop : (ps.drop (n / 2 - 1)).length = n - (n / 2 - 1) := by
          rw [List.length_drop, hnlen]
        obtain ⟨mid, bs, hmb⟩ : ∃ mid bs, ps.drop (n / 2 - 1) = mid :: bs := by
          cases hd : ps.drop (n / 2 - 1) with
          | nil => rw [hd] at hdrop; simp at hdrop; omega
          | cons mid bs => exact ⟨mid, bs, rfl⟩
        have hsplit : ps = ps.take (n / 2 - 1) ++ mid :: bs := by
          rw [← hmb, List.take_append_drop]
        generalize htake : ps.take (n / 2 - 1) = as at hsplit
        have has : as.length = n / 2 - 1 := by
          rw [← htake, List.length_take, hnlen]; omega
        have hbs : bs.length = n - n / 2 := by
          have := congrArg List.length hsplit
          simp [hnlen, has] at this
          omega
        have hLp : (as ++ [mid]).length = n / 2 := by
          simp [has]; omega
        have hmid_mem : mid ∈ ps := by rw [hsplit]; simp
        have hnd : ps.Nodup := is_chain_nodup hc
        have hmid_ele : ∃ h1, store_next h mid 0 = Res.ok h1 := by
          rw [hsplit] at hc
          obtain ⟨m, _, hrest⟩ := is_chain_suffix hc
          obtain ⟨rfl, r, hr, _⟩ := is_chain_cons.1 hrest
          obtain ⟨hm0, v, hv⟩ := load_next_eq_ok.1 hr
          exact ⟨_, store_next_eq_ok.2 ⟨hm0, v, _, hv, rfl⟩⟩
        obtain ⟨h1, hst⟩ := hmid_ele
        obtain ⟨r, hwalk, hldr, hcL, hcR⟩ := is_chain_split (hsplit ▸ hc) hst
        have hrel1 : relinked ps h h1 := relinked_store_next hst hmid_mem
        have hsubL : ∀ a, a ∈ as ++ [mid] → a ∈ ps := by
          intro a ha; rw [hsplit]; simp at ha ⊢; tauto
        have hsubR : ∀ a, a ∈ bs → a ∈ ps := by
          intro a ha; rw [hsplit]; simp; tauto
        have hdisj : ∀ a, a ∈ as ++ [mid] → a ∉ bs := by
          intro a ha hb
          have hnd2 : (as ++ [mid] ++ bs).Nodup := by
            simpa [List.append_assoc] using hsplit ▸ hnd
          exact (List.disjoint_of_nodup_append hnd2) ha hb
        -- the left half
        obtain ⟨l1, h2, Lq, hrunL, hchL, hpermL, hsortL, hrelL⟩ :=
          ih h1 head (as ++ [mid]) hcL
            (fun a ha => by rw [relinked_load_key hrel1]; exact hk a (hsubL a ha))
            (by rw [hLp]; omega)
        have hcR2 : is_chain h2 r bs :=
          relinked_seg hrelL (fun a ha hb => hdisj a hb ha) hcR
        have hrel2 : relinked ps h h2 := relinked_trans hrel1 (relinked_mono hsubL hrelL)
        -- the right half
        obtain ⟨r1, h3, Rq, hrunR, hchR, hpermR, hsortR, hrelR⟩ :=
          ih h2 r bs hcR2
            (fun a ha => by rw [relinked_load_key hrel2]; exact hk a (hsubR a ha))
            (by rw [hbs]; omega)
        have hchL3 : is_chain h3 l1 Lq :=
          relinked_seg hrelR (fun a ha => hdisj a (hpermL.mem_iff.1 ha)) hchL
        have hrel3 : relinked ps h h3 := relinked_trans hrel2 (relinked_mono hsubR hrelR)
        -- the merge
        have hpermLR : (Lq ++ Rq).Perm ps := by
          rw [hsplit]
          have := hpermL.append hpermR
          simpa [List.append_assoc] using this
        have inv0 : MergeInv h3 ps
            { heap := h3, head := head, merge := 0, left := l1, right := r1 } [] Lq Rq := by
          refine ⟨?_, ?_, hchL3, hchR, Or.inl ⟨rfl, rfl⟩, relinked_refl _ _, ?_⟩
          · simpa using hpermLR.nodup_iff.2 hnd
          · intro a ha
            exact hpermLR.mem_iff.1 (by simpa using ha)
          · intro a ha
            rw [relinked_load_key hrel3]
            exact hk a (hpermLR.mem_iff.1 ha)
        obtain ⟨st1, hrunM, invM⟩ := merge_loop_spec (fuel + 1) _ [] Lq Rq inv0 (by
          have := hpermLR.length_eq
          simp only [List.length_append] at this
          omega)
        simp only [List.nil_append] at invM
        have hpermM : (merge_spec (key_at h3) Lq Rq).Perm ps :=
          (merge_spec_perm _ _ _).trans hpermLR
        have hMne : merge_spec (key_at h3) Lq Rq ≠ [] := by
          intro e
          rw [e] at hpermM
          have := hpermM.length_eq
          simp at this
          omega
        have hk1 : key_at h1 = key_at h := relinked_key_fun hrel1
        have hk2 : key_at h2 = key_at h := relinked_key_fun hrel2
        have hk3 : key_at h3 = key_at h := relinked_key_fun hrel3
        refine ⟨st1.head, st1.heap, merge_spec (key_at h3) Lq Rq, ?_,
          merge_inv_final invM hMne, hpermM, ?_, relinked_trans hrel3 invM.heap⟩
        · have hsz1 : Int.tdiv (n : Int) 2 = (((as ++ [mid]).length : Nat) : Int) := by
            rw [tdiv_two, hLp]
          have hsz2 : (n : Int) - Int.tdiv (n : Int) 2 = ((bs.length : Nat) : Int) := by
            rw [tdiv_two, hbs]; omega
          have hsz3 : Int.toNat (Int.tdiv (n : Int) 2 - 1) = as.length := by
            rw [tdiv_two, has]; omega
          rw [merge_sort]
          simp only [hh0, if_false, hhn, Res.ok_bind, hn0]
          rw [hsz3, hsz2, hsz1]
          simp only [if_false, Res.ok_bind, hwalk, hldr, hst, hrunL, hrunR, hrunM, Res.pure_eq]
        · rw [hk3]
          rw [hk1] at hsortL
          rw [hk2] at hsortR
          exact merge_spec_sorted _ _ _ hsortL hsortR

/-! ## Assignments to the fields of the queue -/

theorem load_next_set_queue (h : Heap) {q : Ptr} {hd tl hd1 tl1 : Ptr} {n n1 : Int}
    (hq : h q = some (Block.queue hd tl n)) (a : Ptr) :
    load_next (h.set q (some (Block.queue hd1 tl1 n1))) a = load_next h a := by
  by_cases ha : a = q
  · subst ha; simp [load_next, hq]
  · simp [load_next, Heap.set_ne _ _ ha]

theorem load_key_set_queue (h : Heap) {q : Ptr} {hd tl hd1 tl1 : Ptr} {n n1 : Int}
    (hq : h q = some (Block.queue hd tl n)) (a : Ptr) :
    load_key (h.set q (some (Block.queue hd1 tl1 n1))) a = load_key h a := by
  have hv : load_value (h.set q (some (Block.queue hd1 tl1 n1))) a = load_value h a := by
    by_cases ha : a = q
    · subst ha; simp [load_value, hq]
    · simp [load_value, Heap.set_ne _ _ ha]
  have hs : ∀ v, load_str (h.set q (some (Block.queue hd1 tl1 n1))) v = load_str h v := by
    intro v
    by_cases ha : v = q
    · subst ha; simp [load_str, hq]
    · simp [load_str, Heap.set_ne _ _ ha]
  unfold load_key
  rw [hv]
  cases load_value h a with
  | ok v => exact hs v
  | fault e => rfl

theorem is_seg_set_queue {h : Heap} {q : Ptr} {hd tl hd1 tl1 : Ptr} {n n1 : Int}
    (hq : h q = some (Block.queue hd tl n)) {p r : Ptr} {as : List Ptr} :
    is_seg (h.set q (some (Block.queue hd1 tl1 n1))) p as r ↔ is_seg h p as r := by
  induction as generalizing p with
  | nil => exact Iff.rfl
  | cons a as ih =>
    show (p = a ∧ ∃ m, load_next _ a = Res.ok m ∧ is_seg _ m as r) ↔
      (p = a ∧ ∃ m, load_next h a = Res.ok m ∧ is_seg h m as r)
    simp only [load_next_set_queue h hq, ih]

theorem mem_chain_ele {h : Heap} {p a : Ptr} {as : List Ptr} {q : Ptr}
    (hc : is_seg h p as q) (ha : a ∈ as) : a ≠ 0 ∧ ∃ v n, h a = some (Block.ele v (some n)) := by
  induction as generalizing p with
  | nil => cases ha
  | cons b as ih =>
    obtain ⟨rfl, n, hn, hr⟩ := hc
    rcases List.mem_cons.1 ha with rfl | hmem
    · obtain ⟨h0, v, hv⟩ := load_next_eq_ok.1 hn
      exact ⟨h0, v, n, hv⟩
    · exact ih hr hmem

theorem queue_not_mem_chain {h : Heap} {p q r : Ptr} {as : List Ptr} {hd tl : Ptr} {n : Int}
    (hq : h q = some (Block.queue hd tl n)) (hc : is_seg h p as r) : q ∉ as := by
  intro hmem
  obtain ⟨_, v, m, hv⟩ := mem_chain_ele hc hmem
  rw [hq] at hv
  cases hv

/-! ## `q_sort` -/

theorem load_head_eq {h : Heap} {q hd tl : Ptr} {n : Int} (hq0 : q ≠ 0)
    (hq : h q = some (Block.queue hd tl n)) : load_head h q = Res.ok hd := by
  simp [load_head, hq0, hq]

theorem load_tail_eq {h : Heap} {q hd tl : Ptr} {n : Int} (hq0 : q ≠ 0)
    (hq : h q = some (Block.queue hd tl n)) : load_tail h q = Res.ok tl := by
  simp [load_tail, hq0, hq]

theorem load_size_eq {h : Heap} {q hd tl : Ptr} {n : Int} (hq0 : q ≠ 0)
    (hq : h q = some (Block.queue hd tl n)) : load_size h q = Res.ok n := by
  simp [load_size, hq0, hq]

theorem store_head_eq {h : Heap} {q hd tl : Ptr} {n : Int} (hq0 : q ≠ 0)
    (hq : h q = some (Block.queue hd tl n)) (p : Ptr) :
    store_head h q p = Res.ok (h.set q (some (Block.queue p tl n))) := by
  simp [store_head, hq0, hq]

theorem store_tail_eq {h : Heap} {q hd tl : Ptr} {n : Int} (hq0 : q ≠ 0)
    (hq : h q = some (Block.queue hd tl n)) (p : Ptr) :
    store_tail h q p = Res.ok (h.set q (some (Block.queue hd p n))) := by
  simp [store_tail, hq0, hq]

theorem store_size_eq {h : Heap} {q hd tl : Ptr} {n : Int} (hq0 : q ≠ 0)
    (hq : h q = some (Block.queue hd tl n)) (m : Int) :
    store_size h q m = Res.ok (h.set q (some (Block.queue hd tl m))) := by
  simp [store_size, hq0, hq]

theorem relinked_isSome {S : List Ptr} {h h1 : Heap} (hr : relinked S h h1) (a : Ptr) :
    (h1 a).isSome = (h a).isSome := by
  rcases hr a with e | ⟨_, v, n, m, e, e1⟩
  · rw [e]
  · rw [e, e1]; rfl

theorem q_sort_spec (fuel : Nat) (h : Heap) (q : Ptr) (ps : List Ptr)
    (hwf : chain_formed h q ps) (hf : ps.length < fuel) :
    ∃ h1 qs, q_sort fuel h q = Res.ok h1 ∧ chain_formed h1 q qs ∧ qs.Perm ps ∧
      List.Chain' (key_le (key_at h)) qs ∧ (∀ a, load_key h1 a = load_key h a) ∧
      (∀ a, (h1 a).isSome = (h a).isSome) ∧ load_tail h1 q = load_tail h q ∧
      load_size h1 q = load_size h q ∧ (∀ a, a ≠ q → a ∉ ps → h1 a = h a) := by
  obtain ⟨hq0, ⟨hd, tl, hq, hc⟩, hk⟩ := hwf
  have hld := load_head_eq hq0 hq
  have hsz := load_size_eq hq0 hq
  by_cases hd0 : hd = 0
  · have hps : ps = [] := (is_chain_zero_iff hc).1 hd0
    subst hps
    refine ⟨h, [], ?_, ⟨hq0, ⟨hd, tl, hq, hc⟩, hk⟩, List.Perm.refl _, List.chain'_nil,
      fun _ => rfl, fun _ => rfl, rfl, rfl, fun _ _ _ => rfl⟩
    simp [q_sort, hq0, hld, hd0]
  · by_cases h1len : ((ps.length : Nat) : Int) = 1
    · have hlen : ps.length = 1 := by omega
      obtain ⟨a, rfl⟩ := List.length_eq_one.1 hlen
      refine ⟨h, [a], ?_, ⟨hq0, ⟨hd, tl, hq, hc⟩, hk⟩, List.Perm.refl _,
        List.chain'_singleton _, fun _ => rfl, fun _ => rfl, rfl, rfl, fun _ _ _ => rfl⟩
      simp [q_sort, hq0, hld, hd0, hsz]
    · obtain ⟨p1, h1, qs, hrun, hch, hperm, hsort, hrel⟩ :=
        merge_sort_spec fuel h hd ps hc hk hf
      have hqn : q ∉ ps := queue_not_mem_chain hq hc
      have hq1 : h1 q = some (Block.queue hd tl (ps.length : Int)) := by
        rw [relinked_frame hrel hqn]; exact hq
      have hst := store_head_eq hq0 hq1 p1
      refine ⟨h1.set q (some (Block.queue p1 tl (ps.length : Int))), qs, ?_,
        ⟨hq0, ⟨p1, tl, ?_, ?_⟩, ?_⟩, hperm, hsort, ?_, ?_, ?_, ?_, ?_⟩
      · simp [q_sort, hq0, hld, hd0, hsz, h1len, hrun, hst]
      · rw [Heap.set_same, hperm.length_eq]
      · exact (is_seg_set_queue hq1).2 hch
      · intro a ha
        rw [load_key_set_queue h1 hq1, relinked_load_key hrel]
        exact hk a (hperm.mem_iff.1 ha)
      · intro a
        rw [load_key_set_queue h1 hq1, relinked_load_key hrel]
      · intro a
        by_cases ha : a = q
        · subst ha; rw [Heap.set_same, hq]; rfl
        · rw [Heap.set_ne _ _ ha]; exact relinked_isSome hrel a
      · rw [load_tail_eq hq0 (Heap.set_same _ _ _), load_tail_eq hq0 hq]
      · rw [load_size_eq hq0 (Heap.set_same _ _ _), load_size_eq hq0 hq]
      · intro a ha hps
        rw [Heap.set_ne _ _ ha]
        exact relinked_frame hrel hps

/-! ## Reads after an update elsewhere -/

theorem load_head_set_ne (h : Heap) {q p : Ptr} (b : Option Block) (hne : q ≠ p) :
    load_head (h.set p b) q = load_head h q := by
  simp [load_head, Heap.set_ne _ _ hne]

theorem load_tail_set_ne (h : Heap) {q p : Ptr} (b : Option Block) (hne : q ≠ p) :
    load_tail (h.set p b) q = load_tail h q := by
  simp [load_tail, Heap.set_ne _ _ hne]

theorem load_size_set_ne (h : Heap) {q p : Ptr} (b : Option Block) (hne : q ≠ p) :
    load_size (h.set p b) q = load_size h q := by
  simp [load_size, Heap.set_ne _ _ hne]

theorem load_next_set_ne (h : Heap) {a p : Ptr} (b : Option Block) (hne : a ≠ p) :
    load_next (h.set p b) a = load_next h a := by
  simp [load_next, Heap.set_ne _ _ hne]

theorem load_value_set_ne (h : Heap) {a p : Ptr} (b : Option Block) (hne : a ≠ p) :
    load_value (h.set p b) a = load_value h a := by
  simp [load_value, Heap.set_ne _ _ hne]

theorem load_str_set_ne (h : Heap) {a p : Ptr} (b : Option Block) (hne : a ≠ p) :
    load_str (h.set p b) a = load_str h a := by
  simp [load_str, Heap.set_ne _ _ hne]

theorem load_key_eq_ok {h : Heap} {a : Ptr} {s : CStr} :
    load_key h a = Res.ok s ↔ ∃ v, load_value h a = Res.ok v ∧ load_str h v = Res.ok s := by
  unfold load_key
  exact Res.bind_eq_ok

theorem load_key_congr {h h1 : Heap} {a : Ptr} {s : CStr} (hk : load_key h a = Res.ok s)
    (ha : h1 a = h a) (hv : ∀ v, load_value h a = Res.ok v → h1 v = h v) :
    load_key h1 a = Res.ok s := by
  obtain ⟨v, h1v, h2v⟩ := load_key_eq_ok.1 hk
  refine load_key_eq_ok.2 ⟨v, ?_, ?_⟩
  · simpa [load_value, ha] using h1v
  · simpa [load_str, hv v h1v] using h2v

/-! ## When the primitives succeed -/

theorem malloc_eq_ok {h h1 : Heap} {r p : Ptr} {b : Block} :
    malloc h r b = Res.ok (p, h1) ↔
      (r = 0 ∧ p = 0 ∧ h1 = h) ∨ (r ≠ 0 ∧ h r = none ∧ p = r ∧ h1 = h.set r (some b)) := by
  unfold malloc
  by_cases hr : r = 0
  · simp [hr, eq_comm]
  · cases hb : h r with
    | none => simp [hr, hb, eq_comm]
    | some c => simp [hr, hb]

theorem free_eq_ok {h h1 : Heap} {p : Ptr} :
    free h p = Res.ok h1 ↔
      (p = 0 ∧ h1 = h) ∨ (p ≠ 0 ∧ (∃ b, h p = some b) ∧ h1 = h.set p none) := by
  unfold free
  by_cases hp : p = 0
  · simp [hp, eq_comm]
  · cases hb : h p with
    | none => simp [hp, hb]
    | some c => simp [hp, hb, eq_comm]

theorem snprintf_eq_ok {h h1 : Heap} {dst : Ptr} {n : Nat} {s : CStr} :
    snprintf h dst n s = Res.ok h1 ↔
      (n = 0 ∧ h1 = h) ∨
        (n ≠ 0 ∧ dst ≠ 0 ∧ ∃ cap old, h dst = some (Block.chars cap old) ∧
          snprintf_count n s ≤ cap ∧
          h1 = h.set dst (some (Block.chars cap (some (s.take (n - 1)))))) := by
  unfold snprintf
  by_cases hn : n = 0
  · simp [hn, eq_comm]
  · by_cases hd : dst = 0
    · simp [hn, hd]
    · rcases hb : h dst with _ | ⟨_, _, _⟩ | ⟨_, _⟩ | ⟨cap, old⟩
      · simp [hn, hd]
      · simp [hn, hd]
      · simp [hn, hd]
      · by_cases hc : snprintf_count n s ≤ cap
        · simp [hn, hd, hc, eq_comm]
        · simp [hn, hd, hc]

theorem snprintf_from_eq_ok {h h1 : Heap} {dst src : Ptr} {n : Nat} :
    snprintf_from h dst n src = Res.ok h1 ↔
      ∃ s, load_str h src = Res.ok s ∧ ¬ (n ≠ 0 ∧ dst = src) ∧
        snprintf h dst n s = Res.ok h1 := by
  unfold snprintf_from
  rw [Res.bind_eq_ok]
  constructor
  · rintro ⟨s, hs, hrest⟩
    by_cases hc : n ≠ 0 ∧ dst = src
    · rw [if_pos hc] at hrest; cases hrest
    · rw [if_neg hc] at hrest; exact ⟨s, hs, hc, hrest⟩
  · rintro ⟨s, hs, hc, hrest⟩
    exact ⟨s, hs, by rw [if_neg hc]; exact hrest⟩

theorem store_value_eq_ok {h h1 : Heap} {p v : Ptr} :
    store_value h p v = Res.ok h1 ↔
      p ≠ 0 ∧ ∃ w m, h p = some (Block.ele w m) ∧ h1 = h.set p (some (Block.ele (some v) m)) := by
  unfold store_value
  by_cases hp : p = 0
  · simp [hp]
  · rcases hb : h p with _ | ⟨_, _, _⟩ | ⟨w, m⟩ | ⟨_, _⟩ <;>
      first | (simp [hp, eq_comm]; done) | (simp [hp, eq_comm]; aesop)

theorem load_head_eq_ok {h : Heap} {q p : Ptr} :
    load_head h q = Res.ok p ↔ q ≠ 0 ∧ ∃ tl n, h q = some (Block.queue p tl n) := by
  unfold load_head
  by_cases hq : q = 0
  · simp [hq]
  · rcases hb : h q with _ | ⟨_, _, _⟩ | ⟨_, _⟩ | ⟨_, _⟩ <;> simp [hq, eq_comm]

theorem load_tail_eq_ok {h : Heap} {q p : Ptr} :
    load_tail h q = Res.ok p ↔ q ≠ 0 ∧ ∃ hd n, h q = some (Block.queue hd p n) := by
  unfold load_tail
  by_cases hq : q = 0
  · simp [hq]
  · rcases hb : h q with _ | ⟨_, _, _⟩ | ⟨_, _⟩ | ⟨_, _⟩ <;> simp [hq, eq_comm]

theorem load_size_eq_ok {h : Heap} {q : Ptr} {n : Int} :
    load_size h q = Res.ok n ↔ q ≠ 0 ∧ ∃ hd tl, h q = some (Block.queue hd tl n) := by
  unfold load_size
  by_cases hq : q = 0
  · simp [hq]
  · rcases hb : h q with _ | ⟨_, _, _⟩ | ⟨_, _⟩ | ⟨_, _⟩ <;> simp [hq, eq_comm]

theorem store_head_eq_ok {h h1 : Heap} {q p : Ptr} :
    store_head h q p = Res.ok h1 ↔
      q ≠ 0 ∧ ∃ hd tl n, h q = some (Block.queue hd tl n) ∧
        h1 = h.set q (some (Block.queue p tl n)) := by
  unfold store_head
  by_cases hq : q = 0
  · simp [hq]
  · rcases hb : h q with _ | ⟨_, _, _⟩ | ⟨_, _⟩ | ⟨_, _⟩ <;>
      first | (simp [hq, eq_comm]; done) | (simp [hq, eq_comm]; aesop)

theorem store_tail_eq_ok {h h1 : Heap} {q p : Ptr} :
    store_tail h q p = Res.ok h1 ↔
      q ≠ 0 ∧ ∃ hd tl n, h q = some (Block.queue hd tl n) ∧
        h1 = h.set q (some (Block.queue hd p n)) := by
  unfold store_tail
  by_cases hq : q = 0
  · simp [hq]
  · rcases hb : h q with _ | ⟨_, _, _⟩ | ⟨_, _⟩ | ⟨_, _⟩ <;>
      first | (simp [hq, eq_comm]; done) | (simp [hq, eq_comm]; aesop)

theorem store_size_eq_ok {h h1 : Heap} {q : Ptr} {m : Int} :
    store_size h q m = Res.ok h1 ↔
      q ≠ 0 ∧ ∃ hd tl n, h q = some (Block.queue hd tl n) ∧
        h1 = h.set q (some (Block.queue hd tl m)) := by
  unfold store_size
  by_cases hq : q = 0
  · simp [hq]
  · rcases hb : h q with _ | ⟨_, _, _⟩ | ⟨_, _⟩ | ⟨_, _⟩ <;>
      first | (simp [hq, eq_comm]; done) | (simp [hq, eq_comm]; aesop)

/-! ## `q_insert_head` -/

theorem q_insert_head_run {h : Heap} {q r1 r2 hd tl : Ptr} {n : Int} {s : CStr}
    (hq0 : q ≠ 0) (hq : h q = some (Block.queue hd tl n)) (hr1 : r1 ≠ 0) (hf1 : h r1 = none)
    (hr2 : r2 ≠ 0) (hf2 : h r2 = none) (h12 : r1 ≠ r2)
    (hlen : strlen s + 1 ≤ sizeof_char_ptr) :
    ∃ h1, q_insert_head h q s r1 r2 = Res.ok (true, h1) ∧
      h1 q = some (Block.queue r1 (if tl = 0 then r1 else tl) (wrap_int (n + 1))) ∧
      h1 r1 = some (Block.ele (some r2) (some hd)) ∧
      h1 r2 = some (Block.chars sizeof_char_ptr (some s)) ∧
      ∀ a, a ≠ q → a ≠ r1 → a ≠ r2 → h1 a = h a := by
  have hq1 : q ≠ r1 := fun e => by rw [e, hf1] at hq; cases hq
  have hq2 : q ≠ r2 := fun e => by rw [e, hf2] at hq; cases hq
  have h21 : r2 ≠ r1 := fun e => h12 e.symm
  have hcnt : snprintf_count (strlen s + 1) s ≤ sizeof_char_ptr := by
    simp [snprintf_count]; exact hlen
  have htake : List.take (strlen s) s = s := by simp [strlen]
  by_cases htl : tl = 0
  · simp [q_insert_head, malloc, hq0, hr1, hf1, hr2, hf2, Heap.set_ne, h21, snprintf, hcnt,
      store_value, h12, htake, load_head, hq1, hq, store_next, store_head, load_tail,
      htl, store_tail, load_size, store_size, hq1.symm, hq2.symm, hq2]
    intro a ha1 ha2 ha3
    simp [Heap.set_ne, ha1, ha2, ha3]
  · simp [q_insert_head, malloc, hq0, hr1, hf1, hr2, hf2, Heap.set_ne, h21, snprintf, hcnt,
      store_value, h12, htake, load_head, hq1, hq, store_next, store_head, load_tail,
      htl, store_size, load_size, hq1.symm, hq2.symm, hq2]
    intro a ha1 ha2 ha3
    simp [Heap.set_ne, ha1, ha2, ha3]

theorem q_insert_head_ok_inv {h h1 : Heap} {q r1 r2 : Ptr} {s : CStr} (hq0 : q ≠ 0)
    (hrun : q_insert_head h q s r1 r2 = Res.ok (true, h1)) :
    r1 ≠ 0 ∧ h r1 = none ∧ r2 ≠ 0 ∧ h r2 = none ∧ r1 ≠ r2 ∧
      strlen s + 1 ≤ sizeof_char_ptr := by
  by_cases hr1 : r1 = 0
  · simp [q_insert_head, malloc, hq0, hr1] at hrun
  cases hf1 : h r1 with
  | some b => simp [q_insert_head, malloc, hq0, hr1, hf1] at hrun
  | none =>
    by_cases hr2 : r2 = 0
    · simp [q_insert_head, malloc, hq0, hr1, hf1, hr2, free] at hrun
    by_cases h12 : r1 = r2
    · subst h12
      simp [q_insert_head, malloc, hq0, hr1, hf1] at hrun
    have h21 : r2 ≠ r1 := fun e => h12 e.symm
    cases hf2 : h r2 with
    | some b => simp [q_insert_head, malloc, hq0, hr1, hf1, hr2, hf2, Heap.set_ne, h21] at hrun
    | none =>
      by_cases hlen : strlen s + 1 ≤ sizeof_char_ptr
      · exact ⟨hr1, rfl, hr2, rfl, h12, hlen⟩
      · have hcnt : ¬ snprintf_count (strlen s + 1) s ≤ sizeof_char_ptr := by
          simp [snprintf_count]; omega
        simp [q_insert_head, malloc, hq0, hr1, hf1, hr2, hf2, Heap.set_ne, h21, snprintf,
          hcnt] at hrun

/-! ## The count through the primitives -/

theorem has_size_set_ne {h : Heap} {q p : Ptr} {n : Int} (b : Option Block)
    (hs : has_size h q n) (hne : q ≠ p) : has_size (h.set p b) q n := by
  obtain ⟨hd, tl, hq⟩ := hs
  exact ⟨hd, tl, by rw [Heap.set_ne _ _ hne]; exact hq⟩

theorem has_size_malloc {h h1 : Heap} {q r p : Ptr} {n : Int} {b : Block}
    (hs : has_size h q n) (hm : malloc h r b = Res.ok (p, h1)) : has_size h1 q n := by
  obtain ⟨hd, tl, hq⟩ := hs
  rcases malloc_eq_ok.1 hm with ⟨_, _, rfl⟩ | ⟨_, hf, _, rfl⟩
  · exact ⟨hd, tl, hq⟩
  · exact has_size_set_ne _ ⟨hd, tl, hq⟩ (fun e => by rw [e, hf] at hq; cases hq)

theorem has_size_snprintf {h h1 : Heap} {q dst : Ptr} {n : Int} {m : Nat} {s : CStr}
    (hs : has_size h q n) (hm : snprintf h dst m s = Res.ok h1) : has_size h1 q n := by
  obtain ⟨hd, tl, hq⟩ := hs
  rcases snprintf_eq_ok.1 hm with ⟨_, rfl⟩ | ⟨_, _, cap, old, hdst, _, rfl⟩
  · exact ⟨hd, tl, hq⟩
  · exact has_size_set_ne _ ⟨hd, tl, hq⟩ (fun e => by rw [e, hdst] at hq; cases hq)

theorem has_size_snprintf_from {h h1 : Heap} {q dst src : Ptr} {n : Int} {m : Nat}
    (hs : has_size h q n) (hm : snprintf_from h dst m src = Res.ok h1) : has_size h1 q n := by
  obtain ⟨s, _, _, hsn⟩ := snprintf_from_eq_ok.1 hm
  exact has_size_snprintf hs hsn

theorem has_size_store_value {h h1 : Heap} {q p v : Ptr} {n : Int}
    (hs : has_size h q n) (hm : store_value h p v = Res.ok h1) : has_size h1 q n := by
  obtain ⟨hd, tl, hq⟩ := hs
  obtain ⟨_, w, m, hp, rfl⟩ := store_value_eq_ok.1 hm
  exact has_size_set_ne _ ⟨hd, tl, hq⟩ (fun e => by rw [e, hp] at hq; cases hq)

theorem has_size_store_next {h h1 : Heap} {q p v : Ptr} {n : Int}
    (hs : has_size h q n) (hm : store_next h p v = Res.ok h1) : has_size h1 q n := by
  obtain ⟨hd, tl, hq⟩ := hs
  obtain ⟨_, w, m, hp, rfl⟩ := store_next_eq_ok.1 hm
  exact has_size_set_ne _ ⟨hd, tl, hq⟩ (fun e => by rw [e, hp] at hq; cases hq)

theorem has_size_store_head {h h1 : Heap} {q p : Ptr} {n : Int}
    (hs : has_size h q n) (hm : store_head h q p = Res.ok h1) : has_size h1 q n := by
  obtain ⟨hd, tl, hq⟩ := hs
  obtain ⟨_, hd1, tl1, n1, hq1, rfl⟩ := store_head_eq_ok.1 hm
  rw [hq] at hq1
  cases hq1
  exact ⟨p, tl, Heap.set_same _ _ _⟩

theorem has_size_store_tail {h h1 : Heap} {q p : Ptr} {n : Int}
    (hs : has_size h q n) (hm : store_tail h q p = Res.ok h1) : has_size h1 q n := by
  obtain ⟨hd, tl, hq⟩ := hs
  obtain ⟨_, hd1, tl1, n1, hq1, rfl⟩ := store_tail_eq_ok.1 hm
  rw [hq] at hq1
  cases hq1
  exact ⟨hd, p, Heap.set_same _ _ _⟩

theorem has_size_store_size {h h1 : Heap} {q : Ptr} {m : Int}
    (hm : store_size h q m = Res.ok h1) : has_size h1 q m := by
  obtain ⟨_, hd1, tl1, n1, _, rfl⟩ := store_size_eq_ok.1 hm
  exact ⟨hd1, tl1, Heap.set_same _ _ _⟩

theorem has_size_load_size {h : Heap} {q : Ptr} {n m : Int}
    (hs : has_size h q n) (hm : load_size h q = Res.ok m) : m = n := by
  obtain ⟨hd, tl, hq⟩ := hs
  obtain ⟨_, hd1, tl1, hq1⟩ := load_size_eq_ok.1 hm
  rw [hq] at hq1
  cases hq1
  rfl

theorem has_size_free {h h1 : Heap} {q p : Ptr} {n : Int}
    (hs : has_size h q n) (hm : free h p = Res.ok h1) (hne : p ≠ q) : has_size h1 q n := by
  rcases free_eq_ok.1 hm with ⟨_, rfl⟩ | ⟨_, _, rfl⟩
  · exact hs
  · exact has_size_set_ne _ hs (fun e => hne e.symm)

theorem has_size_free_load {h h1 : Heap} {q p : Ptr} {n m : Int}
    (hs : has_size h q n) (hm : free h p = Res.ok h1) (hl : load_size h1 q = Res.ok m) :
    has_size h1 q n := by
  by_cases hne : p = q
  · subst hne
    rcases free_eq_ok.1 hm with ⟨_, rfl⟩ | ⟨_, _, rfl⟩
    · exact hs
    · obtain ⟨_, hd1, tl1, hq1⟩ := load_size_eq_ok.1 hl
      rw [Heap.set_same] at hq1
      cases hq1
  · exact has_size_free hs hm hne

/-! ## Arithmetic of `int` -/

theorem wrap_int_of_range {x : Int} (h1 : -2147483648 ≤ x) (h2 : x < 2147483648) :
    wrap_int x = x := by
  unfold wrap_int; omega

theorem wrap_int_range (x : Int) : -2147483648 ≤ wrap_int x ∧ wrap_int x < 2147483648 := by
  unfold wrap_int; omega

theorem wrap_int_add (a c : Int) : wrap_int (wrap_int a + c) = wrap_int (a + c) := by
  unfold wrap_int; omega

theorem has_size_finish {y h1 : Heap} {q : Ptr} {n : Int} {b : Bool} (sy : has_size y q n)
    (hrun : (do
        let m ← load_size y q
        let h ← store_size y q (wrap_int (m + 1))
        pure (true, h)) = Res.ok (b, h1)) :
    has_size h1 q (if b then wrap_int (n + 1) else n) := by
  obtain ⟨m, hm, hrun⟩ := Res.bind_eq_ok.1 hrun
  obtain ⟨hH, h1h, hrun⟩ := Res.bind_eq_ok.1 hrun
  simp only [Res.pure_eq, Res.ok.injEq, Prod.mk.injEq] at hrun
  obtain ⟨rfl, rfl⟩ := hrun
  rw [has_size_load_size sy hm] at h1h
  simpa using has_size_store_size h1h

theorem has_size_insert_head {h h1 : Heap} {q r1 r2 : Ptr} {s : CStr} {n : Int} {b : Bool}
    (hq0 : q ≠ 0) (hs : has_size h q n)
    (hrun : q_insert_head h q s r1 r2 = Res.ok (b, h1)) :
    has_size h1 q (if b then wrap_int (n + 1) else n) := by
  unfold q_insert_head at hrun
  simp only [hq0, if_false] at hrun
  obtain ⟨⟨newh, hA⟩, hm1, hrun⟩ := Res.bind_eq_ok.1 hrun
  have sA := has_size_malloc hs hm1
  dsimp only at hrun
  by_cases hnew : newh = 0
  · simp only [hnew, if_true, Res.pure_eq, Res.ok.injEq, Prod.mk.injEq] at hrun
    obtain ⟨rfl, rfl⟩ := hrun
    simpa using sA
  simp only [hnew, if_false] at hrun
  obtain ⟨⟨value, hB⟩, hm2, hrun⟩ := Res.bind_eq_ok.1 hrun
  have sB := has_size_malloc sA hm2
  dsimp only at hrun
  by_cases hval : value = 0
  · simp only [hval, if_true] at hrun
    obtain ⟨hC, hfree, hrun⟩ := Res.bind_eq_ok.1 hrun
    simp only [Res.pure_eq, Res.ok.injEq, Prod.mk.injEq] at hrun
    obtain ⟨rfl, rfl⟩ := hrun
    have hnq : newh ≠ q := by
      rcases malloc_eq_ok.1 hm1 with ⟨_, e, _⟩ | ⟨_, hf, e, _⟩
      · exact absurd e hnew
      · obtain ⟨hd, tl, hq⟩ := hs
        rintro rfl
        rw [e, hf] at hq
        cases hq
    simpa using has_size_free sB hfree hnq
  simp only [hval, if_false] at hrun
  obtain ⟨hC, h1c, hrun⟩ := Res.bind_eq_ok.1 hrun
  have sC := has_size_snprintf sB h1c
  obtain ⟨hD, h1d, hrun⟩ := Res.bind_eq_ok.1 hrun
  have sD := has_size_store_value sC h1d
  obtain ⟨hd, _, hrun⟩ := Res.bind_eq_ok.1 hrun
  obtain ⟨hE, h1e, hrun⟩ := Res.bind_eq_ok.1 hrun
  have sE := has_size_store_next sD h1e
  obtain ⟨hF, h1f, hrun⟩ := Res.bind_eq_ok.1 hrun
  have sF := has_size_store_head sE h1f
  obtain ⟨tl, _, hrun⟩ := Res.bind_eq_ok.1 hrun
  by_cases htl : tl = 0
  · rw [if_pos htl] at hrun
    obtain ⟨hG, h1g, hrun⟩ := Res.bind_eq_ok.1 hrun
    exact has_size_finish (has_size_store_tail sF h1g) hrun
  · rw [if_neg htl] at hrun
    exact has_size_finish sF hrun

theorem has_size_insert_tail {h h1 : Heap} {q r1 r2 : Ptr} {s : CStr} {n : Int} {b : Bool}
    (hq0 : q ≠ 0) (hs : has_size h q n)
    (hrun : q_insert_tail h q s r1 r2 = Res.ok (b, h1)) :
    has_size h1 q (if b then wrap_int (n + 1) else n) := by
  unfold q_insert_tail at hrun
  simp only [hq0, if_false] at hrun
  obtain ⟨⟨newh, hA⟩, hm1, hrun⟩ := Res.bind_eq_ok.1 hrun
  have sA := has_size_malloc hs hm1
  dsimp only at hrun
  by_cases hnew : newh = 0
  · simp only [hnew, if_true, Res.pure_eq, Res.ok.injEq, Prod.mk.injEq] at hrun
    obtain ⟨rfl, rfl⟩ := hrun
    simpa using sA
  simp only [hnew, if_false] at hrun
  obtain ⟨⟨value, hB⟩, hm2, hrun⟩ := Res.bind_eq_ok.1 hrun
  have sB := has_size_malloc sA hm2
  dsimp only at hrun
  by_cases hval : value = 0
  · simp only [hval, if_true] at hrun
    obtain ⟨hC, hfree, hrun⟩ := Res.bind_eq_ok.1 hrun
    simp only [Res.pure_eq, Res.ok.injEq, Prod.mk.injEq] at hrun
    obtain ⟨rfl, rfl⟩ := hrun
    have hnq : newh ≠ q := by
      rcases malloc_eq_ok.1 hm1 with ⟨_, e, _⟩ | ⟨_, hf, e, _⟩
      · exact absurd e hnew
      · obtain ⟨hd, tl, hq⟩ := hs
        rintro rfl
        rw [e, hf] at hq
        cases hq
    simpa using has_size_free sB hfree hnq
  simp only [hval, if_false] at hrun
  obtain ⟨hC, h1c, hrun⟩ := Res.bind_eq_ok.1 hrun
  have sC := has_size_snprintf sB h1c
  obtain ⟨hD, h1d, hrun⟩ := Res.bind_eq_ok.1 hrun
  have sD := has_size_store_value sC h1d
  obtain ⟨tl, _, hrun⟩ := Res.bind_eq_ok.1 hrun
  by_cases htl : tl = 0
  · rw [if_pos htl] at hrun
    obtain ⟨hE, h1e, hrun⟩ := Res.bind_eq_ok.1 hrun
    obtain ⟨hG, h1g, hrun⟩ := Res.bind_eq_ok.1 hrun
    exact has_size_finish (has_size_store_head (has_size_store_tail sD h1e) h1g) hrun
  · rw [if_neg htl] at hrun
    obtain ⟨t, _, hrun⟩ := Res.bind_eq_ok.1 hrun
    obtain ⟨hE, h1e, hrun⟩ := Res.bind_eq_ok.1 hrun
    obtain ⟨hG, h1g, hrun⟩ := Res.bind_eq_ok.1 hrun
    exact has_size_finish (has_size_store_tail (has_size_store_next sD h1e) h1g) hrun

theorem has_size_remove_head {h h1 : Heap} {q sp : Ptr} {bufsize : Nat} {n : Int} {b : Bool}
    (hq0 : q ≠ 0) (hs : has_size h q n)
    (hrun : q_remove_head h q sp bufsize = Res.ok (b, h1)) :
    has_size h1 q (if b then wrap_int (n - 1) else n) := by
  unfold q_remove_head at hrun
  simp only [hq0, if_false] at hrun
  obtain ⟨hd, _, hrun⟩ := Res.bind_eq_ok.1 hrun
  by_cases hhd : hd = 0
  · simp only [hhd, if_true, Res.pure_eq, Res.ok.injEq, Prod.mk.injEq] at hrun
    obtain ⟨rfl, rfl⟩ := hrun
    simpa using hs
  simp only [hhd, if_false] at hrun
  obtain ⟨v, _, hrun⟩ := Res.bind_eq_ok.1 hrun
  obtain ⟨hA, h1a, hrun⟩ := Res.bind_eq_ok.1 hrun
  have sA := has_size_snprintf_from hs h1a
  obtain ⟨hd1, _, hrun⟩ := Res.bind_eq_ok.1 hrun
  obtain ⟨nx, _, hrun⟩ := Res.bind_eq_ok.1 hrun
  obtain ⟨hB, h1b, hrun⟩ := Res.bind_eq_ok.1 hrun
  have sB := has_size_store_head sA h1b
  obtain ⟨hd2, _, hrun⟩ := Res.bind_eq_ok.1 hrun
  obtain ⟨hC, h1c, hrun⟩ := Res.bind_eq_ok.1 hrun
  obtain ⟨m, hm, hrun⟩ := Res.bind_eq_ok.1 hrun
  have sC := has_size_free_load sB h1c hm
  obtain ⟨hD, h1d, hrun⟩ := Res.bind_eq_ok.1 hrun
  simp only [Res.pure_eq, Res.ok.injEq, Prod.mk.injEq] at hrun
  obtain ⟨rfl, rfl⟩ := hrun
  rw [has_size_load_size sC hm] at h1d
  simpa using has_size_store_size h1d

/-! ## `q_reverse` -/

theorem is_chain_head {h : Heap} {p : Ptr} {as : List Ptr} (hc : is_chain h p as) :
    p = as.head?.getD 0 := by
  cases as with
  | nil => simpa using is_chain_nil.1 hc
  | cons a as => simpa using (is_chain_cons.1 hc).1

theorem reverse_loop_spec (fuel : Nat) (h : Heap) (cur last : Ptr) (R D : List Ptr)
    (hR : is_chain h cur R) (hD : is_chain h last D) (hnd : (R ++ D).Nodup)
    (hf : R.length < fuel) :
    ∃ h1, reverse_loop fuel h cur last = Res.ok h1 ∧
      is_chain h1 ((R.reverse ++ D).head?.getD 0) (R.reverse ++ D) ∧ relinked R h h1 := by
  induction fuel generalizing h cur last R D with
  | zero => omega
  | succ fuel ih =>
    cases R with
    | nil =>
      have hc0 : cur = 0 := is_chain_nil.1 hR
      refine ⟨h, by simp [reverse_loop, hc0], ?_, relinked_refl _ _⟩
      rw [List.reverse_nil, List.nil_append, ← is_chain_head hD]
      exact hD
    | cons c R =>
      obtain ⟨rfl, nx, hnx, hR1⟩ := is_chain_cons.1 hR
      obtain ⟨hc0, v, hv⟩ := load_next_eq_ok.1 hnx
      have hst : store_next h cur last =
          Res.ok (h.set cur (some (Block.ele v (some last)))) :=
        store_next_eq_ok.2 ⟨hc0, v, _, hv, rfl⟩
      have hcR : cur ∉ R := (List.nodup_cons.1 (List.nodup_append.1 hnd).1).1
      have hcD : cur ∉ D := fun hm => (List.nodup_append.1 hnd).2.2 (List.mem_cons_self _ _) hm
      have hfr : ∀ a, a ≠ cur → (h.set cur (some (Block.ele v (some last)))) a = h a :=
        fun a ha => Heap.set_ne _ _ ha
      have hR2 : is_chain (h.set cur (some (Block.ele v (some last)))) nx R :=
        is_seg_congr hR1 (fun a ha => hfr a (fun e => hcR (e ▸ ha)))
      have hD2 : is_chain (h.set cur (some (Block.ele v (some last)))) cur (cur :: D) :=
        is_chain_cons.2 ⟨rfl, last, load_next_eq_ok.2 ⟨hc0, v, Heap.set_same _ _ _⟩,
          is_seg_congr hD (fun a ha => hfr a (fun e => hcD (e ▸ ha)))⟩
      have hnd2 : (R ++ cur :: D).Nodup := by
        have hp : (R ++ cur :: D).Perm (cur :: R ++ D) := List.perm_middle
        exact hp.nodup_iff.2 hnd
      obtain ⟨h1, hrun, hch, hrel⟩ := ih _ nx cur R (cur :: D) hR2 hD2 hnd2
        (by simp at hf; omega)
      refine ⟨h1, ?_, ?_, ?_⟩
      · rw [reverse_loop]
        simp [hc0, hnx, hst, hrun]
      · simpa [List.reverse_cons, List.append_assoc] using hch
      · exact relinked_trans (relinked_store_next hst (List.mem_cons_self _ _))
          (relinked_mono (fun a ha => List.mem_cons_of_mem _ ha) hrel)

theorem q_reverse_spec (fuel : Nat) (h : Heap) (q : Ptr) (ps : List Ptr)
    (hwf : well_formed h q ps) (hf : ps.length < fuel) :
    (∃ h1, q_reverse fuel h q = Res.ok h1 ∧ well_formed h1 q ps.reverse ∧
      load_head h1 q = load_tail h q ∧ load_tail h1 q = load_head h q ∧
      (ps ≠ [] → ∃ t, load_tail h1 q = Res.ok t ∧ load_next h1 t = Res.ok 0) ∧
      q_size h1 q = q_size h q ∧ (∀ a, load_key h1 a = load_key h a) ∧
      strings h1 ps.reverse = (strings h ps).reverse ∧
      (∀ a, (h1 a).isSome = (h a).isSome) ∧ (ps = [] → h1 = h)) ∧
    q_reverse fuel h 0 = Res.ok h := by
  refine ⟨?_, by simp [q_reverse]⟩
  obtain ⟨⟨hq0, ⟨hd, tl, hq, hc⟩, hk⟩, htail⟩ := hwf
  have hld := load_head_eq hq0 hq
  have hlt := load_tail_eq hq0 hq
  have htl : tl = ps.getLast?.getD 0 := by
    rw [hlt] at htail
    simpa using htail
  have hhd : hd = ps.head?.getD 0 := is_chain_head hc
  by_cases hd0 : hd = 0
  · have hps : ps = [] := (is_chain_zero_iff hc).1 hd0
    subst hps
    have htl0 : tl = 0 := by simpa using htl
    refine ⟨h, by simp [q_reverse, hq0, hld, hd0], ⟨⟨hq0, ⟨hd, tl, hq, hc⟩, hk⟩, htail⟩, ?_, ?_,
      fun hne => absurd rfl hne, rfl, fun _ => rfl, rfl, fun _ => rfl, fun _ => rfl⟩
    · rw [hld, hlt, hd0, htl0]
    · rw [hld, hlt, hd0, htl0]
  · have hps : ps ≠ [] := fun e => hd0 ((is_chain_zero_iff hc).2 e)
    have hqA : (h.set q (some (Block.queue tl tl (ps.length : Int)))) q =
        some (Block.queue tl tl (ps.length : Int)) := Heap.set_same _ _ _
    have hstA := store_head_eq hq0 hq tl
    have hstB := store_tail_eq hq0 hqA hd
    have hqB : ((h.set q (some (Block.queue tl tl (ps.length : Int)))).set q
        (some (Block.queue tl hd (ps.length : Int)))) q =
        some (Block.queue tl hd (ps.length : Int)) := Heap.set_same _ _ _
    have hcB : is_chain ((h.set q (some (Block.queue tl tl (ps.length : Int)))).set q
        (some (Block.queue tl hd (ps.length : Int)))) hd ps :=
      (is_seg_set_queue hqA).2 ((is_seg_set_queue hq).2 hc)
    obtain ⟨h1, hrun, hch, hrel⟩ := reverse_loop_spec fuel _ hd 0 ps [] hcB
      (is_chain_nil.2 rfl) (by simpa using is_chain_nodup hc) hf
    simp only [List.append_nil] at hch
    rw [List.head?_reverse, ← htl] at hch
    have hqn : q ∉ ps := queue_not_mem_chain hq hc
    have hq1 : h1 q = some (Block.queue tl hd (ps.length : Int)) := by
      rw [relinked_frame hrel hqn]; exact hqB
    have hkeys : ∀ a, load_key h1 a = load_key h a := by
      intro a
      rw [relinked_load_key hrel, load_key_set_queue _ hqA, load_key_set_queue _ hq]
    have hlast : hd = ps.reverse.getLast?.getD 0 := by
      rw [List.getLast?_reverse]; exact hhd
    refine ⟨h1, ?_, ⟨⟨hq0, ⟨tl, hd, ?_, hch⟩, ?_⟩, ?_⟩, ?_, ?_, ?_, ?_, hkeys, ?_, ?_, ?_⟩
    · simp [q_reverse, hq0, hld, hd0, hlt, hstA, load_tail_eq hq0 hqA, hstB, hrun]
    · rw [hq1, List.length_reverse]
    · intro a ha
      rw [hkeys a]
      exact hk a (List.mem_reverse.1 ha)
    · rw [load_tail_eq hq0 hq1, hlast]
    · rw [load_head_eq hq0 hq1, hlt]
    · rw [load_tail_eq hq0 hq1, hld]
    · intro _
      refine ⟨hd, load_tail_eq hq0 hq1, ?_⟩
      have hsplit : ps.reverse = ps.reverse.dropLast ++ [hd] := by
        have hne : ps.reverse ≠ [] := by simpa using hps
        have h1 := List.dropLast_append_getLast hne
        have h2 : ps.reverse.getLast hne = hd := by
          have := List.getLast?_eq_getLast _ hne
          rw [hlast, this]; rfl
        rw [h2] at h1
        exact h1.symm
      rw [hsplit] at hch
      obtain ⟨m, _, hm⟩ := is_chain_suffix hch
      obtain ⟨_, n, hn, hnil⟩ := is_chain_cons.1 hm
      rw [is_chain_nil.1 hnil] at hn
      exact hn
    · simp [q_size, hq0, load_size_eq hq0 hq1, load_size_eq hq0 hq]
    · simp only [strings, List.map_reverse]
      congr 1
      refine List.map_congr_left ?_
      intro a _
      simp [key_at, hkeys a]
    · intro a
      rw [relinked_isSome hrel]
      by_cases ha : a = q
      · subst ha; rw [hqB, hq]; rfl
      · rw [Heap.set_ne _ _ ha, Heap.set_ne _ _ ha]
    · intro e; exact absurd e hps

theorem q_insert_head_spec (h h1 : Heap) (q r1 r2 : Ptr) (s : CStr) (ps : List Ptr)
    (hwf : well_formed h q ps) (hcount : (ps.length : Int) + 1 < 2147483648)
    (hrun : q_insert_head h q s r1 r2 = Res.ok (true, h1)) :
    well_formed h1 q (r1 :: ps) ∧ strings h1 (r1 :: ps) = s :: strings h ps ∧
      q_size h1 q = Res.ok ((ps.length : Int) + 1) ∧
      h r1 = none ∧ load_head h1 q = Res.ok r1 ∧ load_next h1 r1 = load_head h q ∧
      load_tail h1 q = (if ps = [] then Res.ok r1 else load_tail h q) := by
  obtain ⟨⟨hq0, ⟨hd, tl, hq, hc⟩, hk⟩, htail⟩ := hwf
  obtain ⟨hr1, hf1, hr2, hf2, h12, hlen⟩ := q_insert_head_ok_inv hq0 hrun
  obtain ⟨h2, hrun2, hq2, he1, he2, hfr⟩ := q_insert_head_run hq0 hq hr1 hf1 hr2 hf2 h12 hlen
  rw [wrap_int_of_range (by omega) hcount] at hq2
  rw [hrun] at hrun2
  simp only [Res.ok.injEq, Prod.mk.injEq, true_and] at hrun2
  subst hrun2
  have htl : tl = ps.getLast?.getD 0 := by
    rw [load_tail_eq hq0 hq] at htail
    simpa using htail
  -- the old elements are untouched
  have hold : ∀ a, a ∈ ps → h1 a = h a := by
    intro a ha
    obtain ⟨_, v, n, hv⟩ := mem_chain_ele hc ha
    refine hfr a ?_ ?_ ?_
    · rintro rfl; exact queue_not_mem_chain hq hc ha
    · rintro rfl; rw [hf1] at hv; cases hv
    · rintro rfl; rw [hf2] at hv; cases hv
  have hkeys : ∀ a, a ∈ ps → load_key h1 a = load_key h a := by
    intro a ha
    obtain ⟨t, ht⟩ := hk a ha
    rw [ht]
    refine load_key_congr ht (hold a ha) ?_
    intro v hv
    obtain ⟨w, hw1, hw⟩ := load_key_eq_ok.1 ht
    rw [hv] at hw1
    cases hw1
    obtain ⟨_, cap, hcap⟩ := load_str_eq_ok.1 hw
    refine hfr _ ?_ ?_ ?_
    · rintro rfl; rw [hq] at hcap; cases hcap
    · rintro rfl; rw [hf1] at hcap; cases hcap
    · rintro rfl; rw [hf2] at hcap; cases hcap
  have hkey1 : load_key h1 r1 = Res.ok s :=
    load_key_eq_ok.2 ⟨r2, load_value_eq_ok.2 ⟨hr1, _, he1⟩, load_str_eq_ok.2 ⟨hr2, _, he2⟩⟩
  have hnext1 : load_next h1 r1 = Res.ok hd := load_next_eq_ok.2 ⟨hr1, _, he1⟩
  have hchain : is_chain h1 r1 (r1 :: ps) :=
    is_chain_cons.2 ⟨rfl, hd, hnext1, is_seg_congr hc hold⟩
  have hlast : (if tl = 0 then r1 else tl) = (r1 :: ps).getLast?.getD 0 := by
    cases ps with
    | nil => simp [htl]
    | cons a as =>
      have hmem : tl ∈ a :: as := by
        rw [htl, List.getLast?_eq_getLast _ (List.cons_ne_nil _ _)]
        exact List.getLast_mem _
      have htl0 : tl ≠ 0 := (mem_chain_ele hc hmem).1
      rw [if_neg htl0, htl, List.getLast?_cons_cons]
  refine ⟨⟨⟨hq0, ⟨r1, if tl = 0 then r1 else tl, ?_, hchain⟩, ?_⟩, ?_⟩, ?_, ?_, hf1, ?_, ?_, ?_⟩
  · rw [hq2]; simp
  · intro a ha
    rcases List.mem_cons.1 ha with rfl | hmem
    · exact ⟨s, hkey1⟩
    · rw [hkeys a hmem]; exact hk a hmem
  · rw [load_tail_eq hq0 hq2, hlast]
  · simp only [strings, List.map_cons]
    congr 1
    · simp [key_at, hkey1]
    · refine List.map_congr_left ?_
      intro a ha
      simp [key_at, hkeys a ha]
  · simp [q_size, hq0, load_size_eq hq0 hq2]
  · exact load_head_eq hq0 hq2
  · rw [hnext1, load_head_eq hq0 hq]
  · rw [load_tail_eq hq0 hq2, load_tail_eq hq0 hq]
    cases ps with
    | nil => simp [htl]
    | cons a as =>
      have hmem : tl ∈ a :: as := by
        rw [htl, List.getLast?_eq_getLast _ (List.cons_ne_nil _ _)]
        exact List.getLast_mem _
      have htl0 : tl ≠ 0 := (mem_chain_ele hc hmem).1
      simp [htl0]

theorem q_insert_head_overflow {h : Heap} {q r1 r2 : Ptr} {s : CStr} (hq0 : q ≠ 0)
    (hr1 : r1 ≠ 0) (hf1 : h r1 = none) (hr2 : r2 ≠ 0) (hf2 : h r2 = none) (h12 : r1 ≠ r2)
    (hlen : sizeof_char_ptr ≤ strlen s) :
    q_insert_head h q s r1 r2 = Res.fault Fault.overflow := by
  have h21 : r2 ≠ r1 := fun e => h12 e.symm
  have hcnt : ¬ snprintf_count (strlen s + 1) s ≤ sizeof_char_ptr := by
    simp [snprintf_count]; omega
  simp [q_insert_head, malloc, hq0, hr1, hf1, hr2, hf2, Heap.set_ne, h21, snprintf, hcnt]

/-! ## `strcmp` is a total order -/

theorem strcmp_eq_zero {a b : CStr} (h : strcmp a b = 0) : a = b := by
  induction a generalizing b with
  | nil =>
    cases b with
    | nil => rfl
    | cons y b => simp [strcmp] at h
  | cons x a ih =>
    cases b with
    | nil => simp [strcmp] at h
    | cons y b =>
      simp only [strcmp] at h
      by_cases h1 : x < y
      · simp [h1] at h
      · by_cases h2 : y < x
        · simp [h1, h2] at h
        · simp only [h1, h2, if_false] at h
          have hxy : x = y := by omega
          rw [hxy, ih h]

theorem strcmp_le_trans {a b c : CStr} (hab : strcmp a b ≤ 0) (hbc : strcmp b c ≤ 0) :
    strcmp a c ≤ 0 := by
  induction a generalizing b c with
  | nil => cases c <;> simp [strcmp]
  | cons x a ih =>
    cases b with
    | nil => simp [strcmp] at hab
    | cons y b =>
      cases c with
      | nil => simp [strcmp] at hbc
      | cons z c =>
        simp only [strcmp] at hab hbc ⊢
        by_cases hxy : x < y
        · have hxz : x < z := by
            by_cases hyz : y < z
            · omega
            · by_cases hzy : z < y
              · simp [hyz, hzy] at hbc
              · omega
          simp [hxz]
        · by_cases hyx : y < x
          · simp [hxy, hyx] at hab
          · simp only [hxy, hyx, if_false] at hab
            have exy : x = y := by omega
            subst exy
            by_cases hxz : x < z
            · simp [hxz]
            · by_cases hzx : z < x
              · simp [hxz, hzx] at hbc
              · simp only [hxz, hzx, if_false] at hbc ⊢
                exact ih hab hbc

theorem sorted_strings_unique {l1 l2 : List CStr} (hp : l1.Perm l2)
    (h1 : List.Chain' (fun a b => strcmp a b ≤ 0) l1)
    (h2 : List.Chain' (fun a b => strcmp a b ≤ 0) l2) : l1 = l2 := by
  haveI : IsTrans CStr (fun a b => strcmp a b ≤ 0) := ⟨fun _ _ _ => strcmp_le_trans⟩
  haveI : IsAntisymm CStr (fun a b => strcmp a b ≤ 0) :=
    ⟨fun a b hab hba => strcmp_eq_zero (by rw [strcmp_antisymm a b] at hba; omega)⟩
  exact List.eq_of_perm_of_sorted hp (List.chain'_iff_pairwise.1 h1)
    (List.chain'_iff_pairwise.1 h2)

/-! ## Reading the queue -/

theorem read_chain_spec {h : Heap} {p : Ptr} {ps : List Ptr} (fuel : Nat)
    (hc : is_chain h p ps) (hk : ∀ a, a ∈ ps → ∃ s, load_key h a = Res.ok s)
    (hf : ps.length < fuel) : read_chain fuel h p = Res.ok (strings h ps) := by
  induction ps generalizing p fuel with
  | nil =>
    cases fuel with
    | zero => omega
    | succ fuel => simp [read_chain, is_chain_nil.1 hc, strings]
  | cons a ps ih =>
    cases fuel with
    | zero => omega
    | succ fuel =>
      obtain ⟨rfl, n, hn, hr⟩ := is_chain_cons.1 hc
      have hp0 : p ≠ 0 := (load_next_eq_ok.1 hn).1
      have hkp := load_key_of_has (hk p (List.mem_cons_self _ _))
      have := ih fuel hr (fun b hb => hk b (List.mem_cons_of_mem _ hb))
        (by simp at hf; omega)
      simp [read_chain, hp0, hkp, hn, this, strings]

theorem queue_strings_spec {h : Heap} {q : Ptr} {ps : List Ptr} (fuel : Nat)
    (hwf : chain_formed h q ps) (hf : ps.length < fuel) :
    queue_strings fuel h q = Res.ok (strings h ps) := by
  obtain ⟨hq0, ⟨hd, tl, hq, hc⟩, hk⟩ := hwf
  simp [queue_strings, load_head_eq hq0 hq, read_chain_spec fuel hc hk hf]

theorem Heap.set_set_none {h : Heap} {r : Ptr} (b : Option Block) (hr : h r = none) :
    (h.set r b).set r none = h := by
  funext a
  by_cases ha : a = r
  · subst ha; simp [Heap.set, hr]
  · simp [Heap.set, ha]

/-! ## One pass of the outer loop of the merge -/

theorem merge_pass_spec {h0 : Heap} {S : List Ptr} (fuel : Nat) (st : MergeState)
    (A L R : List Ptr) (inv : MergeInv h0 S st A L R) (hne : L ++ R ≠ [])
    (hfL : L.length < fuel) (hfR : R.length < fuel) :
    ∃ st1 st2 T1 T2 L1 R2, take_left fuel st = Res.ok st1 ∧
      take_right fuel st1 = Res.ok st2 ∧ L = T1 ++ L1 ∧ R = T2 ++ R2 ∧
      MergeInv h0 S st2 (A ++ T1 ++ T2) L1 R2 ∧
      merge_spec (key_at h0) L R = T1 ++ (T2 ++ merge_spec (key_at h0) L1 R2) ∧
      L1.length + R2.length < L.length + R.length := by
  obtain ⟨st1, T1, L1, hrun1, hL, inv1, hms1, hexit1⟩ :=
    take_left_spec fuel st A L R inv hfL
  obtain ⟨st2, T2, R2, hrun2, hR, inv2, hms2, hexit2⟩ :=
    take_right_spec fuel st1 (A ++ T1) L1 R inv1 hfR
  have hprog : T1 ≠ [] ∨ T2 ≠ [] := by
    by_contra hc
    push_neg at hc
    obtain ⟨rfl, rfl⟩ := hc
    simp only [List.nil_append] at hL hR
    subst hL hR
    cases L with
    | nil =>
      cases R with
      | nil => exact hne rfl
      | cons y R =>
        obtain ⟨x, L1, hx, _⟩ := hexit2 y R rfl
        cases hx
    | cons x L =>
      obtain ⟨y, R1, rfl, hxy⟩ := hexit1 x L rfl
      obtain ⟨x1, L1, hx, hyx⟩ := hexit2 y R1 rfl
      cases hx
      exact hyx (strcmp_le_of_not_lt hxy)
  refine ⟨st1, st2, T1, T2, L1, R2, hrun1, hrun2, hL, hR, inv2, ?_, ?_⟩
  · rw [hms1, hms2]
  · have h1 := congrArg List.length hL
    have h2 := congrArg List.length hR
    simp only [List.length_append] at h1 h2
    have h3 : 0 < T1.length + T2.length := by
      rcases hprog with h | h
      · have := List.length_pos.2 h; omega
      · have := List.length_pos.2 h; omega
    omega

theorem merge_inv_start {h : Heap} {hd l r : Ptr} {L R : List Ptr}
    (hl : is_chain h l L) (hr : is_chain h r R) (hnd : (L ++ R).Nodup)
    (hk : ∀ a, a ∈ L ++ R → ∃ s, load_key h a = Res.ok s) :
    MergeInv h (L ++ R) { heap := h, head := hd, merge := 0, left := l, right := r }
      [] L R :=
  ⟨by simpa using hnd, fun a ha => by simpa using ha, hl, hr, Or.inl ⟨rfl, rfl⟩,
    relinked_refl _ _, hk⟩

theorem merge_run_spec {h : Heap} {hd l r : Ptr} {L R : List Ptr} (fuel : Nat)
    (hl : is_chain h l L) (hr : is_chain h r R) (hnd : (L ++ R).Nodup)
    (hk : ∀ a, a ∈ L ++ R → ∃ s, load_key h a = Res.ok s) (hne : L ++ R ≠ [])
    (hf : L.length + R.length < fuel) :
    ∃ st, merge_loop fuel { heap := h, head := hd, merge := 0, left := l, right := r } =
        Res.ok st ∧
      is_chain st.heap st.head (merge_spec (key_at h) L R) ∧
      relinked (L ++ R) h st.heap := by
  obtain ⟨st, hrun, inv⟩ := merge_loop_spec fuel _ [] L R (merge_inv_start hl hr hnd hk) hf
  simp only [List.nil_append] at inv
  have hMne : merge_spec (key_at h) L R ≠ [] := by
    intro e
    have := (merge_spec_perm (key_at h) L R).length_eq
    rw [e] at this
    exact hne (List.length_eq_zero.1 this.symm)
  exact ⟨st, hrun, merge_inv_final inv hMne, inv.heap⟩

/-! ## Properties of the queue operations -/

/-- C1, at its witness: after `q_new` and `q_insert_tail` of "b", "a" and "c" (each returning
success), the next-reference of the last element has never been assigned, so the chain from
head does not end in an absent reference and `q_sort` reads an unassigned pointer instead of
producing "a", "b", "c". -/
theorem tail_insert_then_sort_faults :
    (tail_scenario >>= fun r => pure (r.1, r.2 6)) =
        Res.ok ([true, true, true], some (Block.ele (some 7) none)) ∧
      (tail_scenario >>= fun r => q_sort 8 r.2 1) = Res.fault Fault.invalid_access := by
  constructor <;> rfl

/-- X1: for every queue whose chain is well formed, `q_sort`
returns (given fuel for more than the number of elements) and leaves a well-formed chain in
which every adjacent pair of strings `(a, b)` satisfies `strcmp a b ≤ 0`. -/
theorem q_sort_sorted (fuel : Nat) (h : Heap) (q : Ptr) (ps : List Ptr)
    (hwf : chain_formed h q ps) (hf : ps.length < fuel) :
    ∃ h1 qs, q_sort fuel h q = Res.ok h1 ∧ chain_formed h1 q qs ∧
      List.Chain' (fun a b => strcmp a b ≤ 0) (strings h1 qs) := by
  obtain ⟨h1, qs, hrun, hwf1, _, hsort, hkeys, _⟩ := q_sort_spec fuel h q ps hwf hf
  refine ⟨h1, qs, hrun, hwf1, ?_⟩
  have hk : key_at h1 = key_at h := by
    funext a
    simp [key_at, hkeys a]
  rw [strings, List.chain'_map, hk]
  exact hsort

/-- The queue holding "b", "a", "c" is sorted to "a", "b", "c". -/
theorem q_sort_sorted_witness :
    chain_formed heap_bac 1 [2, 4, 6] ∧
      (∃ h1 qs, q_sort 8 heap_bac 1 = Res.ok h1 ∧ chain_formed h1 1 qs ∧
        List.Chain' (fun a b => strcmp a b ≤ 0) (strings h1 qs)) ∧
      (q_sort 8 heap_bac 1 >>= fun h1 => queue_strings 8 h1 1) =
        Res.ok [[97], [98], [99]] :=
  ⟨by simp [chain_formed, is_chain, is_seg, load_next, load_key, load_value, load_str,
      heap_bac],
    q_sort_sorted 8 heap_bac 1 [2, 4, 6]
      (by simp [chain_formed, is_chain, is_seg, load_next, load_key, load_value, load_str,
        heap_bac])
      (by decide),
    by rfl⟩

/-- C2: for every queue whose chain is well formed, `q_sort` returns and only re-links: the
chain from head afterwards is well formed (it ends in an absent next-reference and has
`q_size` elements), its elements are a permutation of the elements before, the string of
every element is unchanged, no address is allocated or freed, and the count is unchanged. -/
theorem q_sort_relinks (fuel : Nat) (h : Heap) (q : Ptr) (ps : List Ptr)
    (hwf : chain_formed h q ps) (hf : ps.length < fuel) :
    ∃ h1 qs, q_sort fuel h q = Res.ok h1 ∧ chain_formed h1 q qs ∧ qs.Perm ps ∧
      (∀ a, load_key h1 a = load_key h a) ∧ (∀ a, (h1 a).isSome = (h a).isSome) ∧
      q_size h1 q = q_size h q ∧ q_size h1 q = Res.ok (ps.length : Int) := by
  obtain ⟨h1, qs, hrun, hwf1, hperm, _, hkeys, hlive, _, hsize, _⟩ :=
    q_sort_spec fuel h q ps hwf hf
  obtain ⟨hq0, ⟨hd, tl, hq, _⟩, _⟩ := hwf
  refine ⟨h1, qs, hrun, hwf1, hperm, hkeys, hlive, ?_, ?_⟩
  · simp [q_size, hq0, hsize]
  · simp [q_size, hq0, hsize, load_size_eq hq0 hq]

/-- The queue holding "b", "a", "c" keeps its three elements `2`, `4`, `6`. -/
theorem q_sort_relinks_witness :
    chain_formed heap_bac 1 [2, 4, 6] ∧
      ∃ h1 qs, q_sort 8 heap_bac 1 = Res.ok h1 ∧ chain_formed h1 1 qs ∧ qs.Perm [2, 4, 6] ∧
        (∀ a, load_key h1 a = load_key heap_bac a) ∧
        (∀ a, (h1 a).isSome = (heap_bac a).isSome) ∧
        q_size h1 1 = q_size heap_bac 1 ∧ q_size h1 1 = Res.ok (([2, 4, 6] : List Ptr).length : Int) :=
  ⟨by simp [chain_formed, is_chain, is_seg, load_next, load_key, load_value, load_str,
      heap_bac],
    q_sort_relinks 8 heap_bac 1 [2, 4, 6]
      (by simp [chain_formed, is_chain, is_seg, load_next, load_key, load_value, load_str,
        heap_bac])
      (by decide)⟩

/-- C3, where the code departs from it. On the well-formed queue holding one element,
`q_remove_head` returns success and leaves head absent and the count `0`, but tail still
references the removed element. On the well-formed queue of the elements `2`, `4`, `6` it
returns success with head referencing `4`, the first of the rest, and the count `2`, but
what it has passed to `free` is that new head: the block at `4` is gone while the removed
element `2` is still allocated. -/
theorem q_remove_head_keeps_tail_frees_new_head :
    well_formed heap_one 1 [2] ∧
      (q_remove_head heap_one 1 9 2 >>= fun r =>
          pure (r.1, load_head r.2 1, load_tail r.2 1, q_size r.2 1)) =
        Res.ok (true, Res.ok 0, Res.ok 2, Res.ok 0) ∧
      well_formed heap_bac 1 [2, 4, 6] ∧
      (q_remove_head heap_bac 1 9 2 >>= fun r =>
          pure (r.1, load_head r.2 1, q_size r.2 1, r.2 4, r.2 2)) =
        Res.ok (true, Res.ok 4, Res.ok 2, none, some (Block.ele (some 3) (some 4))) := by
  refine ⟨?_, by rfl, ?_, by rfl⟩
  · simp [well_formed, chain_formed, is_chain, is_seg, load_next, load_key, load_value,
      load_str, load_tail, heap_one]
  · simp [well_formed, chain_formed, is_chain, is_seg, load_next, load_key, load_value,
      load_str, load_tail, heap_bac]

/-- C5: on an absent queue and on a queue whose head is absent, `q_remove_head` returns
failure and leaves the whole heap as it was: the caller's buffer, and the head, the tail
and the count of the queue. -/
theorem q_remove_head_empty (h : Heap) (q sp : Ptr) (bufsize : Nat)
    (hq : q = 0 ∨ load_head h q = Res.ok 0) :
    q_remove_head h q sp bufsize = Res.ok (false, h) := by
  rcases hq with rfl | hq
  · simp [q_remove_head]
  · by_cases hq0 : q = 0
    · simp [q_remove_head, hq0]
    · simp [q_remove_head, hq0, hq]

/-- The absent queue, and the empty queue at address `1`. -/
theorem q_remove_head_empty_witness :
    q_remove_head heap_one 0 9 2 = Res.ok (false, heap_one) ∧
      load_head heap_new 1 = Res.ok 0 ∧
      q_remove_head heap_new 1 9 2 = Res.ok (false, heap_new) :=
  ⟨q_remove_head_empty heap_one 0 9 2 (Or.inl rfl), by rfl,
    q_remove_head_empty heap_new 1 9 2 (Or.inr (by rfl))⟩

/-- C7, where the code departs from it: `q_insert_tail` of "a" into the empty queue returns
success and makes the new element `2` both head and tail with count `1`, but never assigns
its next-reference, which is then not absent but unassigned: reading it is a fault. -/
theorem q_insert_tail_leaves_next_unassigned :
    well_formed heap_new 1 [] ∧
      (q_insert_tail heap_new 1 [97] 2 3 >>= fun r =>
          pure (r.1, load_head r.2 1, load_tail r.2 1, q_size r.2 1, r.2 2,
            load_next r.2 2)) =
        Res.ok (true, Res.ok 2, Res.ok 2, Res.ok 1, some (Block.ele (some 3) none),
          Res.fault Fault.invalid_access) := by
  refine ⟨?_, by rfl⟩
  simp [well_formed, chain_formed, is_chain, is_seg, load_tail, heap_new]

/-- C9, where the code departs from it: `q_insert_head(q, "x")` on a new queue and then
`q_remove_head` into a buffer of two bytes both return success, leave "x" in the buffer,
head absent and the count `0`, but tail still references the removed element `2`. -/
theorem insert_then_remove_keeps_tail :
    insert_remove_scenario =
      Res.ok (true, true, some (Block.chars 2 (some [120])), 0, 2, 0) := by
  rfl

/-- C4: on a queue whose chain is well formed and whose head element holds the string `s`,
a successful `q_remove_head` with a buffer capacity `n ≥ 1` leaves in the buffer the first
`min (strlen s) (n - 1)` bytes of `s` followed by a terminator; it has written
`min (strlen s) (n - 1) + 1` bytes, which is at most `n` and at most the size of the
buffer. -/
theorem q_remove_head_truncates (h h1 : Heap) (q sp : Ptr) (n : Nat) (x : Ptr)
    (rest : List Ptr) (s : CStr) (hwf : chain_formed h q (x :: rest))
    (hs : load_key h x = Res.ok s) (hn : 1 ≤ n)
    (hrun : q_remove_head h q sp n = Res.ok (true, h1)) :
    ∃ cap, h1 sp = some (Block.chars cap (some (s.take (min (strlen s) (n - 1))))) ∧
      snprintf_count n s = min (strlen s) (n - 1) + 1 ∧ snprintf_count n s ≤ n ∧
      snprintf_count n s ≤ cap := by
  obtain ⟨hq0, ⟨hd, tl, hq, hc⟩, _⟩ := hwf
  obtain ⟨rfl, nx, hnx, hrest⟩ := is_chain_cons.1 hc
  obtain ⟨hx0, w, hxe⟩ := load_next_eq_ok.1 hnx
  obtain ⟨v, hval, hstr⟩ := load_key_eq_ok.1 hs
  have hn0 : n ≠ 0 := by omega
  unfold q_remove_head at hrun
  simp only [hq0, if_false, load_head_eq hq0 hq, Res.ok_bind, hx0, hval] at hrun
  obtain ⟨ha, hsn, hrun⟩ := Res.bind_eq_ok.1 hrun
  obtain ⟨s1, hs1, _, hsn⟩ := snprintf_from_eq_ok.1 hsn
  rw [hstr] at hs1
  cases hs1
  rcases snprintf_eq_ok.1 hsn with ⟨e, _⟩ | ⟨_, hsp0, cap, old, hsp, hcap, rfl⟩
  · exact absurd e hn0
  have hspq : q ≠ sp := fun e => by rw [e, hsp] at hq; cases hq
  have hspx : hd ≠ sp := fun e => by rw [e, hsp] at hxe; cases hxe
  have hqa : (h.set sp (some (Block.chars cap (some (List.take (n - 1) s))))) q =
      some (Block.queue hd tl ((hd :: rest).length : Int)) := by
    rw [Heap.set_ne _ _ hspq]; exact hq
  simp only [load_head_eq hq0 hqa, Res.ok_bind, load_next_set_ne _ _ hspx, hnx,
    store_head_eq hq0 hqa, load_head_eq hq0 (Heap.set_same _ _ _)] at hrun
  obtain ⟨hb, hfree, hrun⟩ := Res.bind_eq_ok.1 hrun
  obtain ⟨m, hm, hrun⟩ := Res.bind_eq_ok.1 hrun
  obtain ⟨hc1, hst, hrun⟩ := Res.bind_eq_ok.1 hrun
  simp only [Res.pure_eq, Res.ok.injEq, Prod.mk.injEq, true_and] at hrun
  subst hrun
  obtain ⟨_, _, _, _, _, rfl⟩ := store_size_eq_ok.1 hst
  have hspq1 : sp ≠ q := fun e => hspq e.symm
  have hcount : snprintf_count n s = min (strlen s) (n - 1) + 1 := by
    simp [snprintf_count, hn0]
  have htake : List.take (n - 1) s = List.take (min (strlen s) (n - 1)) s := by
    simp only [strlen]
    rcases Nat.le_total s.length (n - 1) with hle | hle
    · rw [Nat.min_eq_left hle, List.take_of_length_le hle, List.take_length]
    · rw [Nat.min_eq_right hle]
  refine ⟨cap, ?_, hcount, ?_, hcap⟩
  · rw [Heap.set_ne _ _ hspq1]
    rcases free_eq_ok.1 hfree with ⟨_, rfl⟩ | ⟨hnx0, _, rfl⟩
    · rw [Heap.set_ne _ _ hspq1, Heap.set_same, htake]
    · have hspnx : sp ≠ nx := by
        intro e
        have hmem : nx ∈ rest := by
          cases rest with
          | nil => exact absurd (is_chain_nil.1 hrest) hnx0
          | cons y ys => rw [(is_chain_cons.1 hrest).1]; exact List.mem_cons_self _ _
        obtain ⟨_, v1, n1, hv1⟩ := mem_chain_ele hrest hmem
        rw [← e, hsp] at hv1
        cases hv1
      rw [Heap.set_ne _ _ hspnx, Heap.set_ne _ _ hspq1, Heap.set_same, htake]
  · rw [hcount]
    have := Nat.min_le_right (strlen s) (n - 1)
    omega

/-- The string "hello" of five bytes removed into a buffer of two bytes leaves its first
byte and the terminator there. -/
theorem q_remove_head_truncates_witness :
    (∃ h1, q_remove_head heap_hello 1 9 2 = Res.ok (true, h1) ∧
      ∃ cap, h1 9 = some (Block.chars cap (some [104])) ∧
        snprintf_count 2 [104, 101, 108, 108, 111] = 2) := by
  have hrun : q_remove_head heap_hello 1 9 2 =
      Res.ok (true, match q_remove_head heap_hello 1 9 2 with
        | Res.ok r => r.2
        | Res.fault _ => heap_hello) := by rfl
  refine ⟨_, hrun, ?_⟩
  obtain ⟨cap, h9, hcnt, _, _⟩ := q_remove_head_truncates heap_hello _ 1 9 2 2 []
    [104, 101, 108, 108, 111]
    (by simp [chain_formed, is_chain, is_seg, load_next, load_key, load_value, load_str,
      heap_hello])
    (by rfl) (by decide) hrun
  exact ⟨cap, h9, hcnt⟩

/-- C6, where the code departs from it: for a well-formed queue and a string `s` of
`sizeof_char_ptr` bytes or more, when both allocations succeed `q_insert_head` copies
`strlen s + 1` bytes into the block of `sizeof_char_ptr` bytes it requested for the copy and
writes past it, so the call has no defined result, where the claim gives the sequence
`s :: L`. -/
theorem q_insert_head_long_string_overflows (h : Heap) (q r1 r2 : Ptr) (s : CStr)
    (ps : List Ptr) (hwf : well_formed h q ps) (hr1 : r1 ≠ 0) (hf1 : h r1 = none)
    (hr2 : r2 ≠ 0) (hf2 : h r2 = none) (h12 : r1 ≠ r2) (hlen : sizeof_char_ptr ≤ strlen s) :
    q_insert_head h q s r1 r2 = Res.fault Fault.overflow :=
  q_insert_head_overflow hwf.1.1 hr1 hf1 hr2 hf2 h12 hlen

/-- Inserting "abcdefgh" at the head of the well-formed queue of "b", "a", "c", with the
free addresses `10` and `11` returned by the two allocations, writes nine bytes into the
block of eight. -/
theorem q_insert_head_long_string_overflows_witness :
    well_formed heap_bac 1 [2, 4, 6] ∧ heap_bac 10 = none ∧ heap_bac 11 = none ∧
      sizeof_char_ptr ≤ strlen [97, 98, 99, 100, 101, 102, 103, 104] ∧
      q_insert_head heap_bac 1 [97, 98, 99, 100, 101, 102, 103, 104] 10 11 =
        Res.fault Fault.overflow :=
  have hwf : well_formed heap_bac 1 [2, 4, 6] := by
    simp [well_formed, chain_formed, is_chain, is_seg, load_next, load_key, load_value,
      load_str, load_tail, heap_bac]
  ⟨hwf, rfl, rfl, by decide,
    q_insert_head_long_string_overflows heap_bac 1 10 11 [97, 98, 99, 100, 101, 102, 103, 104]
      [2, 4, 6] hwf (by decide) rfl (by decide) rfl (by decide) (by decide)⟩

/-- X3: for a well-formed queue with the elements `ps` from head to tail, fewer than
`2147483647` of them, and a string `s` that fits with its terminator the `sizeof_char_ptr`
bytes requested for the copy, when both allocations succeed `q_insert_head` returns true
and leaves a well-formed queue with the elements `r1 :: ps`, where `r1` is the newly
allocated element; the strings are now `s` followed by the strings before, the count is one
more, head references `r1`, the next-reference of `r1` is the previous head, and tail is
`r1` when `ps` was empty and unchanged otherwise. -/
theorem q_insert_head_short_links (h : Heap) (q r1 r2 : Ptr) (s : CStr) (ps : List Ptr)
    (hwf : well_formed h q ps) (hr1 : r1 ≠ 0) (hf1 : h r1 = none) (hr2 : r2 ≠ 0)
    (hf2 : h r2 = none) (h12 : r1 ≠ r2) (hlen : strlen s + 1 ≤ sizeof_char_ptr)
    (hcount : (ps.length : Int) + 1 < 2147483648) :
    ∃ h1, q_insert_head h q s r1 r2 = Res.ok (true, h1) ∧
      well_formed h1 q (r1 :: ps) ∧ strings h1 (r1 :: ps) = s :: strings h ps ∧
      q_size h1 q = Res.ok ((ps.length : Int) + 1) ∧
      load_head h1 q = Res.ok r1 ∧ load_next h1 r1 = load_head h q ∧
      load_tail h1 q = (if ps = [] then Res.ok r1 else load_tail h q) := by
  obtain ⟨hd, tl, hq, _⟩ := hwf.1.2.1
  obtain ⟨h1, hrun, _⟩ := q_insert_head_run hwf.1.1 hq hr1 hf1 hr2 hf2 h12 hlen
  obtain ⟨a, b, c, _, d, e, f⟩ := q_insert_head_spec h h1 q r1 r2 s ps hwf hcount hrun
  exact ⟨h1, hrun, a, b, c, d, e, f⟩

/-- Inserting "x" and then "y" at the head of the empty queue: both calls succeed, the order
from head to tail is "y", "x", and the size is 2. -/
theorem q_insert_head_short_links_witness :
    well_formed heap_new 1 [] ∧
      (∃ h1, q_insert_head heap_new 1 [120] 2 3 = Res.ok (true, h1) ∧
        well_formed h1 1 [2] ∧ strings h1 [2] = [120] :: strings heap_new [] ∧
        q_size h1 1 = Res.ok (([] : List Ptr).length + 1) ∧
        load_head h1 1 = Res.ok 2 ∧ load_next h1 2 = load_head heap_new 1 ∧
        load_tail h1 1 = (if ([] : List Ptr) = [] then Res.ok 2 else load_tail heap_new 1)) ∧
      q_insert_head heap_new 1 [120] 2 3 = Res.ok (true, heap_x) ∧
      q_insert_head heap_x 1 [121] 4 5 = Res.ok (true, heap_yx) ∧
      queue_strings 8 heap_yx 1 = Res.ok [[121], [120]] ∧
      q_size heap_yx 1 = Res.ok 2 :=
  have hnew : well_formed heap_new 1 [] := by
    simp [well_formed, chain_formed, is_chain, is_seg, load_tail, heap_new]
  ⟨hnew,
    q_insert_head_short_links heap_new 1 2 3 [120] [] hnew (by decide) rfl (by decide) rfl
      (by decide) (by decide) (by decide),
    by rfl, by rfl, by rfl, by rfl⟩

theorem run_ops_size {h h1 : Heap} {q : Ptr} {ops : List Op} {bs : List Bool} {n : Int}
    (hq0 : q ≠ 0) (hs : has_size h q n) (hn : wrap_int n = n)
    (hrun : run_ops h q ops = Res.ok (bs, h1)) :
    has_size h1 q (wrap_int (n + (inserts_ok ops bs : Int) - (removes_ok ops bs : Int))) := by
  induction ops generalizing h bs n with
  | nil =>
    simp only [run_ops, Res.pure_eq, Res.ok.injEq, Prod.mk.injEq] at hrun
    obtain ⟨rfl, rfl⟩ := hrun
    simpa [inserts_ok, removes_ok, hn] using hs
  | cons op ops ih =>
    simp only [run_ops] at hrun
    obtain ⟨⟨b, hA⟩, hop, hrun⟩ := Res.bind_eq_ok.1 hrun
    dsimp only at hrun
    obtain ⟨⟨bs1, hB⟩, hrest, hrun⟩ := Res.bind_eq_ok.1 hrun
    simp only [Res.pure_eq, Res.ok.injEq, Prod.mk.injEq] at hrun
    obtain ⟨rfl, rfl⟩ := hrun
    have hup : wrap_int (wrap_int (n + 1)) = wrap_int (n + 1) := by
      simpa using wrap_int_add (n + 1) 0
    have hdn : wrap_int (wrap_int (n - 1)) = wrap_int (n - 1) := by
      simpa using wrap_int_add (n - 1) 0
    cases op with
    | insert_head s r1 r2 =>
      have hs1 := has_size_insert_head hq0 hs hop
      cases b
      · have := ih hs1 hn hrest
        simpa [inserts_ok, removes_ok, Op.is_insert] using this
      · have := ih hs1 hup hrest
        have e : wrap_int (wrap_int (n + 1) + (inserts_ok ops bs1 : Int) -
              (removes_ok ops bs1 : Int)) =
            wrap_int (n + ((1 + inserts_ok ops bs1 : Nat) : Int) -
              ((0 + removes_ok ops bs1 : Nat) : Int)) := by
          unfold wrap_int; push_cast; omega
        simp only [if_true] at this
        rw [e] at this
        simpa [inserts_ok, removes_ok, Op.is_insert] using this
    | insert_tail s r1 r2 =>
      have hs1 := has_size_insert_tail hq0 hs hop
      cases b
      · have := ih hs1 hn hrest
        simpa [inserts_ok, removes_ok, Op.is_insert] using this
      · have := ih hs1 hup hrest
        have e : wrap_int (wrap_int (n + 1) + (inserts_ok ops bs1 : Int) -
              (removes_ok ops bs1 : Int)) =
            wrap_int (n + ((1 + inserts_ok ops bs1 : Nat) : Int) -
              ((0 + removes_ok ops bs1 : Nat) : Int)) := by
          unfold wrap_int; push_cast; omega
        simp only [if_true] at this
        rw [e] at this
        simpa [inserts_ok, removes_ok, Op.is_insert] using this
    | remove_head sp bufsize =>
      have hs1 := has_size_remove_head hq0 hs hop
      cases b
      · have := ih hs1 hn hrest
        simpa [inserts_ok, removes_ok, Op.is_insert] using this
      · have := ih hs1 hdn hrest
        have e : wrap_int (wrap_int (n - 1) + (inserts_ok ops bs1 : Int) -
              (removes_ok ops bs1 : Int)) =
            wrap_int (n + ((0 + inserts_ok ops bs1 : Nat) : Int) -
              ((1 + removes_ok ops bs1 : Nat) : Int)) := by
          unfold wrap_int; push_cast; omega
        simp only [if_true] at this
        rw [e] at this
        simpa [inserts_ok, removes_ok, Op.is_insert] using this

theorem inserts_ok_le (ops : List Op) (bs : List Bool) : inserts_ok ops bs ≤ ops.length := by
  induction ops generalizing bs with
  | nil => simp [inserts_ok]
  | cons op ops ih =>
    cases bs with
    | nil => simp [inserts_ok]
    | cons b bs =>
      have := ih bs
      simp only [inserts_ok, List.length_cons]
      split <;> omega

theorem removes_ok_le (ops : List Op) (bs : List Bool) : removes_ok ops bs ≤ ops.length := by
  induction ops generalizing bs with
  | nil => simp [removes_ok]
  | cons op ops ih =>
    cases bs with
    | nil => simp [removes_ok]
    | cons b bs =>
      have := ih bs
      simp only [removes_ok, List.length_cons]
      split <;> omega

theorem run_ops_absent {h h1 : Heap} {ops : List Op} {bs : List Bool}
    (hrun : run_ops h 0 ops = Res.ok (bs, h1)) :
    inserts_ok ops bs = 0 ∧ removes_ok ops bs = 0 := by
  induction ops generalizing h bs with
  | nil =>
    simp only [run_ops, Res.pure_eq, Res.ok.injEq, Prod.mk.injEq] at hrun
    obtain ⟨rfl, rfl⟩ := hrun
    simp [inserts_ok, removes_ok]
  | cons op ops ih =>
    simp only [run_ops] at hrun
    obtain ⟨⟨b, hA⟩, hop, hrun⟩ := Res.bind_eq_ok.1 hrun
    dsimp only at hrun
    obtain ⟨⟨bs1, hB⟩, hrest, hrun⟩ := Res.bind_eq_ok.1 hrun
    simp only [Res.pure_eq, Res.ok.injEq, Prod.mk.injEq] at hrun
    obtain ⟨rfl, rfl⟩ := hrun
    have hb : b = false := by
      cases op <;> simp [run_op, q_insert_head, q_insert_tail, q_remove_head] at hop <;>
        exact hop.1
    subst hb
    simpa [inserts_ok, removes_ok] using ih hrest

/-- X2: for every sequence of `q_insert_head`, `q_insert_tail` and `q_remove_head` calls on
the queue `q_new` returned, when all the calls have run (none of them faulted) `q_size` is
the number of insertions that returned success minus the number of removals that returned
success, as a value of type `int`; for a sequence of fewer than `2147483648` calls it is
that number itself. -/
theorem q_size_counts (h0 h h1 : Heap) (r q : Ptr) (ops : List Op) (bs : List Bool)
    (hnew : q_new h0 r = Res.ok (q, h)) (hrun : run_ops h q ops = Res.ok (bs, h1)) :
    q_size h1 q =
        Res.ok (wrap_int ((inserts_ok ops bs : Int) - (removes_ok ops bs : Int))) ∧
      (ops.length < 2147483648 →
        q_size h1 q = Res.ok ((inserts_ok ops bs : Int) - (removes_ok ops bs : Int))) := by
  have hmain : q_size h1 q =
      Res.ok (wrap_int ((inserts_ok ops bs : Int) - (removes_ok ops bs : Int))) := by
    by_cases hq0 : q = 0
    · subst hq0
      obtain ⟨hi, hr⟩ := run_ops_absent hrun
      simp [q_size, hi, hr, wrap_int]
    · have hs : has_size h q 0 := by
        unfold q_new at hnew
        obtain ⟨⟨p, hA⟩, hm, hnew⟩ := Res.bind_eq_ok.1 hnew
        dsimp only at hnew
        have hpq : p = q ∧ hA = h := by
          by_cases hp : p = 0
          · simp [hp] at hnew; exact ⟨hp ▸ hnew.1, hnew.2⟩
          · simp [hp] at hnew; exact hnew
        obtain ⟨rfl, rfl⟩ := hpq
        rcases malloc_eq_ok.1 hm with ⟨_, e, _⟩ | ⟨_, _, rfl, rfl⟩
        · exact absurd e hq0
        · exact ⟨0, 0, Heap.set_same _ _ _⟩
      obtain ⟨hd, tl, hq⟩ := run_ops_size hq0 hs (by simp [wrap_int]) hrun
      simp [q_size, hq0, load_size_eq hq0 hq]
  refine ⟨hmain, fun hlen => ?_⟩
  have hi := inserts_ok_le ops bs
  have hr := removes_ok_le ops bs
  rw [hmain, wrap_int_of_range (by omega) (by omega)]

/-- Two successful insertions, one successful removal and one failed insertion leave the
size 1. -/
theorem q_size_counts_witness :
    q_new heap_buf 1 = Res.ok (1, heap_buf.set 1 (some (Block.queue 0 0 0))) ∧
      run_ops (heap_buf.set 1 (some (Block.queue 0 0 0))) 1 sample_ops =
        Res.ok ([true, true, true, false], heap_sample) ∧
      q_size heap_sample 1 =
        Res.ok ((inserts_ok sample_ops [true, true, true, false] : Int) -
          (removes_ok sample_ops [true, true, true, false] : Int)) ∧
      q_size heap_sample 1 = Res.ok 1 :=
  ⟨by rfl, by rfl,
    (q_size_counts heap_buf _ heap_sample 1 1 sample_ops [true, true, true, false]
      (by rfl) (by rfl)).2 (by decide),
    by rfl⟩

/-- C8, where the code departs from it: after two successful insertions at the head and one
successful removal the size is `1`, but the removal has freed the element that is now the
head (`2`, still referenced by head, is no longer allocated), so the second removal reads a
freed element: the sequence has no defined result, where the claim gives the size `0`. -/
theorem double_remove_faults :
    (run_ops (heap_buf.set 1 (some (Block.queue 0 0 0))) 1 (double_remove_ops.take 3) >>=
        fun r => pure (r.1, load_head r.2 1, r.2 2, q_size r.2 1)) =
        Res.ok ([true, true, true], Res.ok 2, none, Res.ok 1) ∧
      run_ops (heap_buf.set 1 (some (Block.queue 0 0 0))) 1 double_remove_ops =
        Res.fault Fault.invalid_access := by
  constructor <;> rfl

/-- X4: the count is an `int`: on a queue whose count is `2147483647` a successful
`q_insert_head` or `q_insert_tail` leaves `q_size` at `-2147483648`, and on a queue whose
count is `-2147483648` a successful `q_remove_head` leaves it at `2147483647`. -/
theorem q_size_wraps :
    (q_insert_head (heap_new.set 1 (some (Block.queue 0 0 2147483647))) 1 [120] 2 3 >>=
        fun r => pure (r.1, q_size r.2 1)) = Res.ok (true, Res.ok (-2147483648)) ∧
      (q_insert_tail (heap_new.set 1 (some (Block.queue 0 0 2147483647))) 1 [120] 2 3 >>=
        fun r => pure (r.1, q_size r.2 1)) = Res.ok (true, Res.ok (-2147483648)) ∧
      (q_remove_head (heap_bac.set 1 (some (Block.queue 2 6 (-2147483648)))) 1 9 2 >>=
        fun r => pure (r.1, q_size r.2 1)) = Res.ok (true, Res.ok 2147483647) := by
  refine ⟨by rfl, by rfl, by rfl⟩

/-- C10: for a well-formed queue with the elements `ps` from head to tail, `q_reverse`
returns (given fuel for more than the number of elements) and leaves a well-formed queue
with the elements in the reverse order; head references what was the tail and tail what was
the head, the next-reference of the new tail is absent, and the count, the string of every
element and the set of allocated addresses are unchanged. On an empty queue and on an
absent queue it leaves the heap as it was. -/
theorem q_reverse_reverses (fuel : Nat) (h : Heap) (q : Ptr) (ps : List Ptr)
    (hwf : well_formed h q ps) (hf : ps.length < fuel) :
    (∃ h1, q_reverse fuel h q = Res.ok h1 ∧ well_formed h1 q ps.reverse ∧
      load_head h1 q = load_tail h q ∧ load_tail h1 q = load_head h q ∧
      (ps ≠ [] → ∃ t, load_tail h1 q = Res.ok t ∧ load_next h1 t = Res.ok 0) ∧
      q_size h1 q = q_size h q ∧ (∀ a, load_key h1 a = load_key h a) ∧
      strings h1 ps.reverse = (strings h ps).reverse ∧
      (∀ a, (h1 a).isSome = (h a).isSome) ∧ (ps = [] → h1 = h)) ∧
    q_reverse fuel h 0 = Res.ok h :=
  q_reverse_spec fuel h q ps hwf hf

/-- The queue of the elements `2`, `4`, `6` holding "b", "a", "c" is reversed to "c", "a",
"b". -/
theorem q_reverse_reverses_witness :
    well_formed heap_bac 1 [2, 4, 6] ∧
      ((∃ h1, q_reverse 8 heap_bac 1 = Res.ok h1 ∧
        well_formed h1 1 ([2, 4, 6] : List Ptr).reverse ∧
        load_head h1 1 = load_tail heap_bac 1 ∧ load_tail h1 1 = load_head heap_bac 1 ∧
        (([2, 4, 6] : List Ptr) ≠ [] →
          ∃ t, load_tail h1 1 = Res.ok t ∧ load_next h1 t = Res.ok 0) ∧
        q_size h1 1 = q_size heap_bac 1 ∧ (∀ a, load_key h1 a = load_key heap_bac a) ∧
        strings h1 ([2, 4, 6] : List Ptr).reverse = (strings heap_bac [2, 4, 6]).reverse ∧
        (∀ a, (h1 a).isSome = (heap_bac a).isSome) ∧
        (([2, 4, 6] : List Ptr) = [] → h1 = heap_bac)) ∧
      q_reverse 8 heap_bac 0 = Res.ok heap_bac) ∧
      (q_reverse 8 heap_bac 1 >>= fun h1 => queue_strings 8 h1 1) =
        Res.ok [[99], [97], [98]] :=
  ⟨by simp [well_formed, chain_formed, is_chain, is_seg, load_next, load_key, load_value,
      load_str, load_tail, heap_bac],
    q_reverse_reverses 8 heap_bac 1 [2, 4, 6]
      (by simp [well_formed, chain_formed, is_chain, is_seg, load_next, load_key, load_value,
        load_str, load_tail, heap_bac])
      (by decide),
    by rfl⟩

/-- C11: for every well-formed queue (empty, of one element or of many), `q_reverse` applied
twice returns both times and restores the queue: it is well formed with the same elements
in the same order from head to tail, head and tail reference what they referenced before,
and the count and the strings are the same. -/
theorem q_reverse_twice (fuel : Nat) (h : Heap) (q : Ptr) (ps : List Ptr)
    (hwf : well_formed h q ps) (hf : ps.length < fuel) :
    ∃ h1 h2, q_reverse fuel h q = Res.ok h1 ∧ q_reverse fuel h1 q = Res.ok h2 ∧
      well_formed h2 q ps ∧ load_head h2 q = load_head h q ∧
      load_tail h2 q = load_tail h q ∧ q_size h2 q = q_size h q ∧
      strings h2 ps = strings h ps := by
  obtain ⟨⟨h1, hrun1, hwf1, hhd1, htl1, _, hsz1, hk1, _, _, _⟩, _⟩ :=
    q_reverse_spec fuel h q ps hwf hf
  obtain ⟨⟨h2, hrun2, hwf2, hhd2, htl2, _, hsz2, hk2, _, _, _⟩, _⟩ :=
    q_reverse_spec fuel h1 q ps.reverse hwf1 (by simpa using hf)
  rw [List.reverse_reverse] at hwf2
  refine ⟨h1, h2, hrun1, hrun2, hwf2, ?_, ?_, ?_, ?_⟩
  · rw [hhd2, htl1]
  · rw [htl2, hhd1]
  · rw [hsz2, hsz1]
  · simp only [strings]
    refine List.map_congr_left ?_
    intro a _
    simp [key_at, hk2 a, hk1 a]

/-- The queue holding "b", "a", "c" is the same after two reversals. -/
theorem q_reverse_twice_witness :
    well_formed heap_bac 1 [2, 4, 6] ∧
      (∃ h1 h2, q_reverse 8 heap_bac 1 = Res.ok h1 ∧ q_reverse 8 h1 1 = Res.ok h2 ∧
        well_formed h2 1 [2, 4, 6] ∧ load_head h2 1 = load_head heap_bac 1 ∧
        load_tail h2 1 = load_tail heap_bac 1 ∧ q_size h2 1 = q_size heap_bac 1 ∧
        strings h2 [2, 4, 6] = strings heap_bac [2, 4, 6]) ∧
      (q_reverse 8 heap_bac 1 >>= fun h1 => q_reverse 8 h1 1 >>= fun h2 =>
        queue_strings 8 h2 1) = Res.ok [[98], [97], [99]] :=
  ⟨by simp [well_formed, chain_formed, is_chain, is_seg, load_next, load_key, load_value,
      load_str, load_tail, heap_bac],
    q_reverse_twice 8 heap_bac 1 [2, 4, 6]
      (by simp [well_formed, chain_formed, is_chain, is_seg, load_next, load_key, load_value,
        load_str, load_tail, heap_bac])
      (by decide),
    by rfl⟩

/-- C12 fails as stated: the well-formed queue of the elements `2` and `4`, which hold
equal strings, is sorted to the order `4`, `2`. -/
theorem q_sort_swaps_equal_strings :
    well_formed heap_aa 1 [2, 4] ∧ strcmp (key_at heap_aa 2) (key_at heap_aa 4) = 0 ∧
      (q_sort 8 heap_aa 1 >>= fun h1 => queue_elems 8 h1 1) = Res.ok [4, 2] := by
  refine ⟨?_, by rfl, by rfl⟩
  simp [well_formed, chain_formed, is_chain, is_seg, load_next, load_key, load_value,
    load_str, load_tail, heap_aa]

/-- C12 as amended: in the merge of `merge_sort`, when the first elements `x` of the left
half and `y` of the right half hold strings that compare equal, the merge returns a chain
that starts with `y`, the element of the right half, with `x` after it. -/
theorem merge_tie_takes_right (fuel : Nat) (h : Heap) (hd l r x y : Ptr) (L R : List Ptr)
    (hl : is_chain h l (x :: L)) (hr : is_chain h r (y :: R))
    (hnd : (x :: L ++ y :: R).Nodup)
    (hk : ∀ a, a ∈ x :: L ++ y :: R → ∃ s, load_key h a = Res.ok s)
    (htie : strcmp (key_at h x) (key_at h y) = 0)
    (hf : (x :: L).length + (y :: R).length < fuel) :
    ∃ st rest,
      merge_loop fuel { heap := h, head := hd, merge := 0, left := l, right := r } =
        Res.ok st ∧
      is_chain st.heap st.head (y :: rest) ∧ x ∈ rest := by
  obtain ⟨st, hrun, hch, _⟩ := merge_run_spec fuel hl hr hnd hk (by simp) hf
  have hge : ¬ strcmp (key_at h x) (key_at h y) < 0 := by omega
  rw [merge_spec_cons_ge L R hge] at hch
  refine ⟨st, merge_spec (key_at h) (x :: L) R, hrun, hch, ?_⟩
  exact (merge_spec_perm (key_at h) (x :: L) R).mem_iff.2 (by simp)

/-- The two halves `2` and `4` with equal strings are merged to the chain `4`, `2`. -/
theorem merge_tie_takes_right_witness :
    is_chain heap_aa_split 2 [2] ∧ is_chain heap_aa_split 4 [4] ∧
      (∃ st rest,
        merge_loop 8 { heap := heap_aa_split, head := 2, merge := 0, left := 2, right := 4 } =
          Res.ok st ∧
        is_chain st.heap st.head (4 :: rest) ∧ 2 ∈ rest) ∧
      (merge_loop 8 { heap := heap_aa_split, head := 2, merge := 0, left := 2, right := 4 }
        >>= fun st => read_elems 8 st.heap st.head) = Res.ok [4, 2] :=
  ⟨by simp [is_chain, is_seg, load_next, heap_aa_split],
    by simp [is_chain, is_seg, load_next, heap_aa_split],
    merge_tie_takes_right 8 heap_aa_split 2 2 4 2 4 [] []
      (by simp [is_chain, is_seg, load_next, heap_aa_split])
      (by simp [is_chain, is_seg, load_next, heap_aa_split])
      (by decide)
      (by simp [load_key, load_value, load_str, heap_aa_split])
      (by rfl) (by decide),
    by rfl⟩

/-- C13, where the code departs from it: on the well-formed queue holding "b" in `2` and
"a" in `4`, `q_sort` leaves the chain `4`, `2` and head referencing `4`, but tail still
references `4`, which is no longer the last element. The following `q_insert_tail` of "c"
returns success and the count becomes `3`, but it links the new element `6` after `4`:
the element `2` is still allocated and no longer in the chain from head. -/
theorem q_sort_keeps_old_tail :
    well_formed heap_ba 1 [2, 4] ∧
      (q_sort 8 heap_ba 1 >>= fun h1 =>
          pure (queue_elems 8 h1 1, load_head h1 1, load_tail h1 1)) =
        Res.ok (Res.ok [4, 2], Res.ok 4, Res.ok 4) ∧
      (q_sort 8 heap_ba 1 >>= fun h1 => q_insert_tail h1 1 [99] 6 7 >>= fun r =>
          pure (r.1, load_next r.2 4, q_size r.2 1, r.2 2)) =
        Res.ok (true, Res.ok 6, Res.ok 3, some (Block.ele (some 3) (some 0))) := by
  refine ⟨?_, by rfl, by rfl⟩
  simp [well_formed, chain_formed, is_chain, is_seg, load_next, load_key, load_value,
    load_str, load_tail, heap_ba]

/-- C14: for every queue whose chain is well formed, `q_sort` applied twice returns both
times, and the strings read from head to tail after the second sort are the strings read
from head to tail after the first. -/
theorem q_sort_idempotent (fuel : Nat) (h : Heap) (q : Ptr) (ps : List Ptr)
    (hwf : chain_formed h q ps) (hf : ps.length < fuel) :
    ∃ h1 h2 qs1 qs2, q_sort fuel h q = Res.ok h1 ∧ q_sort fuel h1 q = Res.ok h2 ∧
      chain_formed h1 q qs1 ∧ chain_formed h2 q qs2 ∧
      strings h2 qs2 = strings h1 qs1 ∧
      queue_strings fuel h2 q = queue_strings fuel h1 q := by
  obtain ⟨h1, qs1, hrun1, hwf1, hperm1, hsort1, hk1, _⟩ := q_sort_spec fuel h q ps hwf hf
  have hlen1 : qs1.length < fuel := by rw [hperm1.length_eq]; exact hf
  obtain ⟨h2, qs2, hrun2, hwf2, hperm2, hsort2, hk2, _⟩ :=
    q_sort_spec fuel h1 q qs1 hwf1 hlen1
  have hlen2 : qs2.length < fuel := by rw [hperm2.length_eq]; exact hlen1
  have hkey1 : key_at h1 = key_at h := by
    funext a; simp [key_at, hk1 a]
  have hkey2 : key_at h2 = key_at h1 := by
    funext a; simp [key_at, hk2 a]
  have hs1 : List.Chain' (fun a b => strcmp a b ≤ 0) (strings h1 qs1) := by
    rw [strings, List.chain'_map, hkey1]; exact hsort1
  have hs2 : List.Chain' (fun a b => strcmp a b ≤ 0) (strings h2 qs2) := by
    rw [strings, List.chain'_map, hkey2]; exact hsort2
  have hp : (strings h2 qs2).Perm (strings h1 qs1) := by
    rw [strings, strings, hkey2]; exact hperm2.map _
  have heq := sorted_strings_unique hp hs2 hs1
  refine ⟨h1, h2, qs1, qs2, hrun1, hrun2, hwf1, hwf2, heq, ?_⟩
  rw [queue_strings_spec fuel hwf2 hlen2, queue_strings_spec fuel hwf1 hlen1, heq]

/-- The queue holding "b", "a", "c" reads "a", "b", "c" after one sort and after two. -/
theorem q_sort_idempotent_witness :
    chain_formed heap_bac 1 [2, 4, 6] ∧
      (∃ h1 h2 qs1 qs2, q_sort 8 heap_bac 1 = Res.ok h1 ∧ q_sort 8 h1 1 = Res.ok h2 ∧
        chain_formed h1 1 qs1 ∧ chain_formed h2 1 qs2 ∧
        strings h2 qs2 = strings h1 qs1 ∧
        queue_strings 8 h2 1 = queue_strings 8 h1 1) ∧
      (q_sort 8 heap_bac 1 >>= fun h1 => q_sort 8 h1 1 >>= fun h2 =>
        queue_strings 8 h2 1) = Res.ok [[97], [98], [99]] :=
  ⟨by simp [chain_formed, is_chain, is_seg, load_next, load_key, load_value, load_str,
      heap_bac],
    q_sort_idempotent 8 heap_bac 1 [2, 4, 6]
      (by simp [chain_formed, is_chain, is_seg, load_next, load_key, load_value, load_str,
        heap_bac])
      (by decide),
    by rfl⟩

/-- C15: `q_insert_head` and `q_insert_tail` return failure when the queue is absent, when
the allocation of the element fails, and when the allocation of the string fails (the
element having been allocated at an address `r1` that was free); in each case the heap
afterwards is the heap before: the queue and its chain are untouched and the element
allocated before the failed string allocation has been released. -/
theorem insert_failure_leaves_heap (h : Heap) (q r1 r2 : Ptr) (s : CStr)
    (hfail : q = 0 ∨ r1 = 0 ∨ (h r1 = none ∧ r2 = 0)) :
    q_insert_head h q s r1 r2 = Res.ok (false, h) ∧
      q_insert_tail h q s r1 r2 = Res.ok (false, h) := by
  by_cases hq0 : q = 0
  · simp [q_insert_head, q_insert_tail, hq0]
  by_cases hr1 : r1 = 0
  · simp [q_insert_head, q_insert_tail, hq0, malloc, hr1]
  rcases hfail with e | e | ⟨hf1, hr2⟩
  · exact absurd e hq0
  · exact absurd e hr1
  · simp [q_insert_head, q_insert_tail, hq0, malloc, hr1, hf1, hr2, free,
      Heap.set_set_none _ hf1]

/-- The three failing cases on the queue holding "b", "a", "c": absent queue, failed element
allocation, failed string allocation after the element was allocated at `10`. -/
theorem insert_failure_leaves_heap_witness :
    (q_insert_head heap_bac 0 [120] 10 11 = Res.ok (false, heap_bac) ∧
      q_insert_tail heap_bac 0 [120] 10 11 = Res.ok (false, heap_bac)) ∧
    (q_insert_head heap_bac 1 [120] 0 11 = Res.ok (false, heap_bac) ∧
      q_insert_tail heap_bac 1 [120] 0 11 = Res.ok (false, heap_bac)) ∧
    (heap_bac 10 = none ∧
      q_insert_head heap_bac 1 [120] 10 0 = Res.ok (false, heap_bac) ∧
      q_insert_tail heap_bac 1 [120] 10 0 = Res.ok (false, heap_bac)) :=
  ⟨insert_failure_leaves_heap heap_bac 0 10 11 [120] (Or.inl rfl),
    insert_failure_leaves_heap heap_bac 1 0 11 [120] (Or.inr (Or.inl rfl)),
    by rfl,
    insert_failure_leaves_heap heap_bac 1 10 0 [120] (Or.inr (Or.inr ⟨by rfl, rfl⟩))⟩

/-- C16, where the code departs from it: the loop of `q_free` runs while `tmp` is null. On
the well-formed empty queue its first pass reads `tmp->value` through the null pointer, a
fault; on the well-formed queues of one and of three elements the loop does not run at all,
so only the queue itself is released and every element and every string stays allocated. -/
theorem q_free_releases_no_element :
    well_formed heap_new 1 [] ∧ q_free 8 heap_new 1 = Res.fault Fault.invalid_access ∧
      well_formed heap_one 1 [2] ∧
      (q_free 8 heap_one 1 >>= fun h => pure (h 1, h 2, h 3)) =
        Res.ok (none, some (Block.ele (some 3) (some 0)), some (Block.chars 8 (some [97]))) ∧
      well_formed heap_bac 1 [2, 4, 6] ∧
      (q_free 8 heap_bac 1 >>= fun h =>
          pure (h 1, [2, 3, 4, 5, 6, 7].map (fun a => (h a).isSome))) =
        Res.ok (none, [true, true, true, true, true, true]) := by
  refine ⟨?_, by rfl, ?_, by rfl, ?_, by rfl⟩
  · simp [well_formed, chain_formed, is_chain, is_seg, load_tail, heap_new]
  · simp [well_formed, chain_formed, is_chain, is_seg, load_next, load_key, load_value,
      load_str, load_tail, heap_one]
  · simp [well_formed, chain_formed, is_chain, is_seg, load_next, load_key, load_value,
      load_str, load_tail, heap_bac]

/-- C17, where the code departs from it. After `q_new`, `q_insert_head(q, "x")` and
`q_remove_head`, the count is `0` and head is absent but tail references the element `2`:
no list of elements makes the queue well formed. After `q_new`, `q_insert_head(q, "a")`,
`q_insert_head(q, "b")` and `q_sort`, the chain from head is `2`, `4` with the count `2`, but
tail references `2`, whose next-reference is `4`, not absent. -/
theorem reachable_state_breaks_invariants :
    (load_head heap_after_remove 1, load_tail heap_after_remove 1,
        q_size heap_after_remove 1) = (Res.ok 0, Res.ok 2, Res.ok 0) ∧
      (¬ ∃ ps, well_formed heap_after_remove 1 ps) ∧
      (queue_elems 8 heap_after_sort 1, q_size heap_after_sort 1,
        load_tail heap_after_sort 1, load_next heap_after_sort 2) =
        (Res.ok [2, 4], Res.ok 2, Res.ok 2, Res.ok 4) := by
  refine ⟨by rfl, ?_, by rfl⟩
  rintro ⟨ps, ⟨hq0, ⟨hd, tl, hq, hc⟩, _⟩, htail⟩
  have h1 : heap_after_remove 1 = some (Block.queue 0 2 0) := by rfl
  rw [h1] at hq
  simp only [Option.some.injEq, Block.queue.injEq] at hq
  obtain ⟨rfl, rfl, hlen⟩ := hq
  have hps : ps = [] := (is_chain_zero_iff hc).1 rfl
  subst hps
  have h2 : load_tail heap_after_remove 1 = Res.ok 2 := by rfl
  rw [h2] at htail
  simp at htail

/-- C18, where the code departs from it: the storage requested for the copy is
`sizeof_char_ptr` bytes whatever the string. For the string "a" (two bytes with its
terminator) the block is of `8` bytes; for "abcdefgh" (nine bytes with its terminator) the
copy does not fit the `8` bytes requested and both insertions write past the block. -/
theorem insert_requests_pointer_size :
    sizeof_char_ptr = 8 ∧
      (q_insert_head heap_new 1 [97] 2 3 >>= fun r => pure (r.1, r.2 3)) =
        Res.ok (true, some (Block.chars 8 (some [97]))) ∧
      (q_insert_tail heap_new 1 [97] 2 3 >>= fun r => pure (r.1, r.2 3)) =
        Res.ok (true, some (Block.chars 8 (some [97]))) ∧
      strlen [97, 98, 99, 100, 101, 102, 103, 104] + 1 = 9 ∧
      q_insert_head heap_new 1 [97, 98, 99, 100, 101, 102, 103, 104] 2 3 =
        Res.fault Fault.overflow ∧
      q_insert_tail heap_new 1 [97, 98, 99, 100, 101, 102, 103, 104] 2 3 =
        Res.fault Fault.overflow := by
  refine ⟨rfl, by rfl, by rfl, by rfl, by rfl, by rfl⟩

/-- C19, where the code departs from it: on the well-formed queue of the elements `2`, `4`,
`6` a successful `q_remove_head` leaves the old head `2` and its string `3` allocated and
releases `4`, the new head, from which the rest is reached; on the well-formed queue of the
one element `2` it releases nothing. -/
theorem q_remove_head_releases_new_head :
    well_formed heap_bac 1 [2, 4, 6] ∧
      (q_remove_head heap_bac 1 9 2 >>= fun r =>
          pure (r.1, load_head r.2 1, (r.2 2).isSome, (r.2 3).isSome, (r.2 4).isSome)) =
        Res.ok (true, Res.ok 4, true, true, false) ∧
      well_formed heap_one 1 [2] ∧
      (q_remove_head heap_one 1 9 2 >>= fun r =>
          pure (r.1, load_head r.2 1, (r.2 2).isSome, (r.2 3).isSome)) =
        Res.ok (true, Res.ok 0, true, true) := by
  refine ⟨?_, by rfl, ?_, by rfl⟩
  · simp [well_formed, chain_formed, is_chain, is_seg, load_next, load_key, load_value,
      load_str, load_tail, heap_bac]
  · simp [well_formed, chain_formed, is_chain, is_seg, load_next, load_key, load_value,
      load_str, load_tail, heap_one]

/-- C20: on every finite chain that ends in an absent next-reference, whose elements hold
strings and whose length is the size argument, `merge_sort` returns (given fuel for more
than the number of elements). For a chain of two or more elements the midpoint walk of
`size / 2 - 1` steps succeeds, reaching an element `mid`; cutting the chain after `mid`
leaves two chains of `size / 2` and of `size - size / 2` elements, both non-empty and
strictly shorter than the chain. Every pass of the outer loop of the merge that starts in a
state of the merge with an element left in one of the halves returns with strictly fewer
elements left in the two halves. -/
theorem merge_sort_terminates (fuel : Nat) (h : Heap) (head : Ptr) (ps : List Ptr)
    (hc : is_chain h head ps) (hk : ∀ a, a ∈ ps → ∃ s, load_key h a = Res.ok s)
    (hf : ps.length < fuel) :
    (∃ r, merge_sort fuel h head (ps.length : Int) = Res.ok r) ∧
    (2 ≤ ps.length → ∃ mid right h1 as bs,
      walk h (Int.toNat (Int.tdiv (ps.length : Int) 2 - 1)) head = Res.ok mid ∧ mid ≠ 0 ∧
      load_next h mid = Res.ok right ∧ store_next h mid 0 = Res.ok h1 ∧
      ps = as ++ bs ∧ is_chain h1 head as ∧ is_chain h1 right bs ∧
      (as.length : Int) = Int.tdiv (ps.length : Int) 2 ∧
      (bs.length : Int) = (ps.length : Int) - Int.tdiv (ps.length : Int) 2 ∧
      0 < as.length ∧ as.length < ps.length ∧ 0 < bs.length ∧ bs.length < ps.length) ∧
    (∀ (h0 : Heap) (S : List Ptr) (st : MergeState) (A L R : List Ptr),
      MergeInv h0 S st A L R → L ++ R ≠ [] → L.length < fuel → R.length < fuel →
      ∃ st1 st2 A2 L2 R2, take_left fuel st = Res.ok st1 ∧
        take_right fuel st1 = Res.ok st2 ∧ MergeInv h0 S st2 A2 L2 R2 ∧
        L2.length + R2.length < L.length + R.length) := by
  refine ⟨?_, ?_, ?_⟩
  · obtain ⟨p1, h1, _, hrun, _⟩ := merge_sort_spec fuel h head ps hc hk hf
    exact ⟨(p1, h1), hrun⟩
  · intro hlen2
    generalize hnlen : ps.length = n at hlen2
    have hdrop : (ps.drop (n / 2 - 1)).length = n - (n / 2 - 1) := by
      rw [List.length_drop, hnlen]
    obtain ⟨mid, bs, hmb⟩ : ∃ mid bs, ps.drop (n / 2 - 1) = mid :: bs := by
      cases hd : ps.drop (n / 2 - 1) with
      | nil => rw [hd] at hdrop; simp at hdrop; omega
      | cons mid bs => exact ⟨mid, bs, rfl⟩
    have hsplit : ps = ps.take (n / 2 - 1) ++ mid :: bs := by
      rw [← hmb, List.take_append_drop]
    generalize htake : ps.take (n / 2 - 1) = as at hsplit
    have has : as.length = n / 2 - 1 := by
      rw [← htake, List.length_take, hnlen]; omega
    have hbs : bs.length = n - n / 2 := by
      have := congrArg List.length hsplit
      simp [hnlen, has] at this
      omega
    have hmid : ∃ h1, store_next h mid 0 = Res.ok h1 ∧ mid ≠ 0 := by
      rw [hsplit] at hc
      obtain ⟨m, _, hrest⟩ := is_chain_suffix hc
      obtain ⟨rfl, r, hr, _⟩ := is_chain_cons.1 hrest
      obtain ⟨hm0, v, hv⟩ := load_next_eq_ok.1 hr
      exact ⟨_, store_next_eq_ok.2 ⟨hm0, v, _, hv, rfl⟩, hm0⟩
    obtain ⟨h1, hst, hm0⟩ := hmid
    obtain ⟨r, hwalk, hldr, hcL, hcR⟩ := is_chain_split (hsplit ▸ hc) hst
    have hsz3 : Int.toNat (Int.tdiv (n : Int) 2 - 1) = as.length := by
      rw [tdiv_two, has]; omega
    refine ⟨mid, r, h1, as ++ [mid], bs, ?_, hm0, hldr, hst, ?_, hcL, hcR, ?_, ?_, ?_, ?_,
      ?_, ?_⟩
    · rw [hsz3]; exact hwalk
    · rw [hsplit]; simp
    · rw [tdiv_two]; simp [has]; omega
    · rw [tdiv_two, hbs]; omega
    · simp
    · simp [has]; omega
    · omega
    · omega
  · intro h0 S st A L R inv hne hfL hfR
    obtain ⟨st1, st2, T1, T2, L1, R2, hrun1, hrun2, _, _, inv2, _, hlt⟩ :=
      merge_pass_spec fuel st A L R inv hne hfL hfR
    exact ⟨st1, st2, A ++ T1 ++ T2, L1, R2, hrun1, hrun2, inv2, hlt⟩

/-- The chain `2`, `4`, `6` of the queue holding "b", "a", "c": `merge_sort` returns; the
walk makes no step and the cut leaves chains of one and of two elements. -/
theorem merge_sort_terminates_witness :
    is_chain heap_bac 2 [2, 4, 6] ∧
      ((∃ r, merge_sort 8 heap_bac 2 (([2, 4, 6] : List Ptr).length : Int) = Res.ok r) ∧
      (2 ≤ ([2, 4, 6] : List Ptr).length → ∃ mid right h1 as bs,
        walk heap_bac (Int.toNat (Int.tdiv (([2, 4, 6] : List Ptr).length : Int) 2 - 1)) 2 =
          Res.ok mid ∧ mid ≠ 0 ∧
        load_next heap_bac mid = Res.ok right ∧ store_next heap_bac mid 0 = Res.ok h1 ∧
        ([2, 4, 6] : List Ptr) = as ++ bs ∧ is_chain h1 2 as ∧ is_chain h1 right bs ∧
        (as.length : Int) = Int.tdiv (([2, 4, 6] : List Ptr).length : Int) 2 ∧
        (bs.length : Int) = (([2, 4, 6] : List Ptr).length : Int) -
          Int.tdiv (([2, 4, 6] : List Ptr).length : Int) 2 ∧
        0 < as.length ∧ as.length < ([2, 4, 6] : List Ptr).length ∧ 0 < bs.length ∧
        bs.length < ([2, 4, 6] : List Ptr).length) ∧
      (∀ (h0 : Heap) (S : List Ptr) (st : MergeState) (A L R : List Ptr),
        MergeInv h0 S st A L R → L ++ R ≠ [] → L.length < 8 → R.length < 8 →
        ∃ st1 st2 A2 L2 R2, take_left 8 st = Res.ok st1 ∧
          take_right 8 st1 = Res.ok st2 ∧ MergeInv h0 S st2 A2 L2 R2 ∧
          L2.length + R2.length < L.length + R.length)) ∧
      (merge_sort 8 heap_bac 2 3 >>= fun r => read_elems 8 r.2 r.1) = Res.ok [4, 2, 6] ∧
      walk heap_bac (Int.toNat (Int.tdiv 3 2 - 1)) 2 = Res.ok 2 :=
  ⟨by simp [is_chain, is_seg, load_next, heap_bac],
    merge_sort_terminates 8 heap_bac 2 [2, 4, 6]
      (by simp [is_chain, is_seg, load_next, heap_bac])
      (by simp [load_key, load_value, load_str, heap_bac])
      (by decide),
    by rfl, by rfl⟩

end Queue
